import Mathlib

/-!
Verification of the expyrun configuration engine (`expyrun/config.py`).

The Python source is shallowly embedded:
* Python dicts become insertion-ordered association lists `List (String × _)`
  (Python dict keys are unique; lookups take the first binding).
* The dynamic value universe `Value = bool | int | float | str` becomes `CValue`;
  floats are modelled as exact rationals (`ℚ`): the source never performs float
  arithmetic, it only parses, stores, compares and prints float values.
* `os.environ` becomes an explicit association list passed to the resolver.
* `warnings.warn` becomes an accumulated list of `Warn` values.
* Exceptions become `Except Err`.
* The recursive resolver (`Parser.parse_key`) is given explicit fuel; every
  recursive call decreases it, so all definitions are structural and compute.
-/

namespace Expyrun

/-- Scalar configuration values (`Value = Union[bool, int, float, str]`). -/
inductive CValue where
  | bool (b : Bool)
  | int (n : Int)
  | float (q : ℚ)
  | str (s : String)
deriving DecidableEq, Repr

/-- Values allowed in a flattened config: a scalar or a list of scalars
(`Union[Value, List[Value]]`). -/
inductive FlatVal where
  | val (v : CValue)
  | list (l : List CValue)
deriving DecidableEq, Repr

/-- A configuration tree entry: a scalar/list leaf or a nested mapping
(`Config = Dict[str, Union[Value, List[Value], Config]]`). -/
inductive CElem where
  | leaf (v : FlatVal)
  | node (es : List (String × CElem))

/-- A configuration tree (a Python dict), as an insertion-ordered assoc list. -/
abbrev Config := List (String × CElem)

/-- A flattened configuration (dotted keys to scalar/list values). -/
abbrev FlatConfig := List (String × FlatVal)

mutual

/-- Boolean equality on `CElem` (needed because `deriving DecidableEq` does not
handle the nested inductive). -/
def ceq : CElem → CElem → Bool
  | .leaf a, .leaf b => a == b
  | .node a, .node b => ceqL a b
  | _, _ => false

/-- Boolean equality on entry lists. -/
def ceqL : List (String × CElem) → List (String × CElem) → Bool
  | [], [] => true
  | (k1, e1) :: r1, (k2, e2) :: r2 => k1 == k2 && ceq e1 e2 && ceqL r1 r2
  | _, _ => false

end

mutual

theorem ceq_iff : ∀ (a b : CElem), ceq a b = true ↔ a = b
  | .leaf _, .leaf _ => by simp [ceq]
  | .leaf _, .node _ => by simp [ceq]
  | .node _, .leaf _ => by simp [ceq]
  | .node a, .node b => by simp [ceq, ceqL_iff a b]

theorem ceqL_iff : ∀ (a b : List (String × CElem)), ceqL a b = true ↔ a = b
  | [], [] => by simp [ceqL]
  | [], _ :: _ => by simp [ceqL]
  | _ :: _, [] => by simp [ceqL]
  | (k1, e1) :: r1, (k2, e2) :: r2 => by
      simp [ceqL, ceq_iff e1 e2, ceqL_iff r1 r2, and_assoc]

end

instance : DecidableEq CElem := fun a b => decidable_of_iff _ (ceq_iff a b)

/-! ### Python dict operations on assoc lists -/

/-- `d[k]` as an option: first binding wins (dict keys are unique anyway). -/
def dlookup : List (String × α) → String → Option α
  | [], _ => none
  | (k', v) :: rest, k => if k' = k then some v else dlookup rest k

/-- `k in d`. -/
def containsK (l : List (String × α)) (k : String) : Bool :=
  (dlookup l k).isSome

/-- `d[k] = v` for an existing key: replace in place (keeping position);
for a fresh key a Python dict appends at the end. -/
def setV : List (String × α) → String → α → List (String × α)
  | [], k, v => [(k, v)]
  | (k', v') :: rest, k, v =>
      if k' = k then (k', v) :: rest else (k', v') :: setV rest k v

/-- Remove a key (all bindings; dict keys are unique so at most one exists). -/
def removeK (l : List (String × α)) (k : String) : List (String × α) :=
  l.filter (fun kv => kv.1 ≠ k)

/-- `d.pop(k)`: the value (if present) and the dict without the key. -/
def dpop (l : List (String × α)) (k : String) : Option α × List (String × α) :=
  (dlookup l k, removeK l k)

/-! ### Warnings and errors -/

/-- Non-fatal signals emitted through `warnings.warn`, in emission order. -/
inductive Warn where
  | newKey (key : String)          -- "Adding new key to configuration: {key}"
  | typeOverridden (key : String)  -- "Key `{key}` has been overloaded with a different type"
  | missingEnv (name : String)     -- "Environment variable {name} not define"
  | unresolvedRef (key : String)   -- "Unable to resolve reference {key}."
deriving DecidableEq, Repr

/-- Fatal errors (Python exceptions). -/
inductive Err where
  | cyclic (key : String)    -- RuntimeError "Cyclic references in configuration"
  | conflict (key : String)  -- ValueError from config_flatten / config_unflatten
  | mergeKey (key : String)  -- KeyError "Unexpected key when merging configs"
  | badPolicy                -- AssertionError on an unknown new_key_policy
  | keyError (key : String)  -- dict lookup failure (unreachable in normal flows)
  | notFound (path : String) -- missing configuration file
  | malformed                -- value outside the declared Config type
  | outOfFuel                -- modelling artefact: recursion fuel exhausted
deriving DecidableEq, Repr

/-! ### Character and string helpers (Python semantics, on `List Char`) -/

/-- ASCII letter (`[a-zA-Z]`). -/
def isAsciiLetter (c : Char) : Bool :=
  ('a' ≤ c && c ≤ 'z') || ('A' ≤ c && c ≤ 'Z')

/-- `[a-zA-Z1-9_]`: the continuation class of both environment-variable
regexps in the source.  Note that the digit `0` is **not** in the class. -/
def isEnvNameChar (c : Char) : Bool :=
  isAsciiLetter c || ('1' ≤ c && c ≤ '9') || c = '_'

/-- `[a-zA-Z1-9_.]`: the class of `SELF_REF_REGEXP` (again without `0`). -/
def isRefChar (c : Char) : Bool :=
  isEnvNameChar c || c = '.'

/-- ASCII decimal digit. -/
def isDigitCh (c : Char) : Bool := '0' ≤ c && c ≤ '9'

/-- Python `str.strip()` whitespace (as accepted around int/float literals). -/
def isPySpace (c : Char) : Bool :=
  c = ' ' || c = '\t' || c = '\n' || c = '\r' || c = Char.ofNat 11 || c = Char.ofNat 12

/-- Strip leading and trailing whitespace. -/
def stripWS (cs : List Char) : List Char :=
  ((cs.dropWhile isPySpace).reverse.dropWhile isPySpace).reverse

/-- ASCII lower-casing of one character (Python `str.lower` on ASCII). -/
def lowerChar (c : Char) : Char :=
  if 'A' ≤ c && c ≤ 'Z' then Char.ofNat (c.toNat + 32) else c

/-- ASCII lower-casing of a string. -/
def pyLower (s : String) : List Char := s.data.map lowerChar

/-- Decimal digit character for `n < 10`. -/
def digitChar (n : Nat) : Char := Char.ofNat ('0'.toNat + n)

/-- Decimal digits of a natural number (fuel-driven so that it computes). -/
def natCharsAux : Nat → Nat → List Char
  | 0, _ => []
  | fuel + 1, n => if n < 10 then [digitChar n] else natCharsAux fuel (n / 10) ++ [digitChar (n % 10)]

/-- Python `str(n)` for a natural number. -/
def natToStr (n : Nat) : String := String.mk (natCharsAux (n + 1) n)

/-- Python `str(i)` for an integer. -/
def intToStr (i : Int) : String :=
  if i < 0 then "-" ++ natToStr i.natAbs else natToStr i.natAbs

/-- Numeric value of a digit list. -/
def digitsToNat (cs : List Char) : Nat :=
  cs.foldl (fun n c => n * 10 + (c.toNat - '0'.toNat)) 0

/-- Python `int(s)`: optional surrounding whitespace, optional sign, a nonempty
run of decimal digits.  (Underscore separators and non-ASCII digits, which
CPython also accepts, are outside this model.) -/
def pyIntParse (s : String) : Option Int :=
  let cs := stripWS s.data
  let (sgn, ds) : Int × List Char :=
    match cs with
    | '+' :: r => (1, r)
    | '-' :: r => (-1, r)
    | r => (1, r)
  if ds ≠ [] ∧ ds.all isDigitCh then some (sgn * digitsToNat ds) else none

/-- Exponent suffix of a float literal: `([eE][+-]?digits)?` applied to the
remaining characters; `none` on a malformed tail. -/
def pyFloatExp : List Char → Option Int
  | [] => some 0
  | c :: r =>
      if c = 'e' ∨ c = 'E' then
        let (esgn, eds) : Int × List Char :=
          match r with
          | '+' :: r' => (1, r')
          | '-' :: r' => (-1, r')
          | r' => (1, r')
        if eds ≠ [] ∧ eds.all isDigitCh then some (esgn * digitsToNat eds) else none
      else none

/-- The rational `±d · 10^e` (built with `mkRat` and `Nat` powers so that it
reduces inside the kernel). -/
def ratOfParts (neg : Bool) (d : Nat) (e : Int) : ℚ :=
  let n : Int := if neg then -(d : Int) else (d : Int)
  if 0 ≤ e then mkRat (n * ((10 : Nat) ^ e.toNat : Nat)) 1
  else mkRat n ((10 : Nat) ^ (-e).toNat)

/-- Python `float(s)` on plain decimal literals:
`[+-]? (digits [. digits*]? | . digits+) ([eE][+-]?digits)?` with optional
surrounding whitespace.  (`inf`/`nan` and underscore separators are outside
this model.)  The value is kept as an exact rational. -/
def pyFloatParse (s : String) : Option ℚ :=
  let cs := stripWS s.data
  let (neg, r) : Bool × List Char :=
    match cs with
    | '+' :: r => (false, r)
    | '-' :: r => (true, r)
    | r => (false, r)
  let (ip, rest₁) := r.span isDigitCh
  let core : Option (Nat × Nat × List Char) :=
    match rest₁ with
    | '.' :: rest₂ =>
        let (fp, rest₃) := rest₂.span isDigitCh
        if ip = [] ∧ fp = [] then none
        else some (digitsToNat (ip ++ fp), fp.length, rest₃)
    | _ => if ip = [] then none else some (digitsToNat ip, 0, rest₁)
  match core with
  | none => none
  | some (d, fracLen, rest) =>
      match pyFloatExp rest with
      | none => none
      | some e => some (ratOfParts neg d (e - fracLen))

/-- `convert_if_possible` (config.py:210-232): try `int`, then `float`, then
case-insensitive `"false"`/`"true"`, else keep the string. -/
def convert_if_possible (value : String) : CValue :=
  match pyIntParse value with
  | some n => .int n
  | none =>
      match pyFloatParse value with
      | some q => .float q
      | none =>
          if pyLower value = "false".data then .bool false
          else if pyLower value = "true".data then .bool true
          else .str value

/-! ### Python `str()` / `repr()` of values (used by self-reference splicing) -/

/-- Concatenate with a separator. -/
def joinSep (sep : String) : List String → String
  | [] => ""
  | [x] => x
  | x :: r => x ++ sep ++ joinSep sep r

/-- Python `str()` of a float.  The model's floats are exact decimal
rationals; we print the exact decimal expansion (`str(3.5) = "3.5"`,
`str(2.0) = "2.0"`).  CPython's shortest-round-trip repr and its scientific
notation for very small/large magnitudes are outside this model. -/
def floatToStr (q : ℚ) : String :=
  let sgn := if q.num < 0 then "-" else ""
  let an := q.num.natAbs
  match (List.range 30).find? (fun k => (10 : Nat) ^ k % q.den = 0) with
  | some 0 => sgn ++ natToStr an ++ ".0"
  | some k =>
      let ds := (natToStr (an * ((10 : Nat) ^ k / q.den))).data
      let ds := if ds.length ≤ k then List.replicate (k + 1 - ds.length) '0' ++ ds else ds
      sgn ++ String.mk (ds.take (ds.length - k)) ++ "." ++ String.mk (ds.drop (ds.length - k))
  | none => sgn ++ natToStr an ++ "/" ++ natToStr q.den

/-- Python `str()` of a scalar. -/
def pyStrVal : CValue → String
  | .bool b => if b then "True" else "False"
  | .int n => intToStr n
  | .float q => floatToStr q
  | .str s => s

/-- Python `repr()` of a scalar (list elements are printed with `repr`). -/
def pyReprVal : CValue → String
  | .str s => "'" ++ s ++ "'"
  | v => pyStrVal v

/-- Python `str()` of a flat value. -/
def pyStrFlat : FlatVal → String
  | .val v => pyStrVal v
  | .list l => "[" ++ joinSep ", " (l.map pyReprVal) ++ "]"

/-! ### `config_flatten` (config.py:73-120) -/

/-- `true_key = f"{prefix}.{key}"` unless the prefix is empty. -/
def joinDot (pre k : String) : String :=
  if pre = "" then k else pre ++ "." ++ k

mutual

/-- `_flatten` on one entry: descend into dicts, otherwise register the value,
failing if `true_key` was already registered. -/
def flatE (tk : String) (e : CElem) (acc : FlatConfig) : Except Err FlatConfig :=
  match e with
  | .node sub => flatN tk sub acc
  | .leaf v => if containsK acc tk then .error (.conflict tk) else .ok (acc ++ [(tk, v)])

/-- `_flatten` over the entries of one dict. -/
def flatN (pre : String) (es : Config) (acc : FlatConfig) : Except Err FlatConfig :=
  match es with
  | [] => .ok acc
  | (k, e) :: rest => do
      let acc' ← flatE (joinDot pre k) e acc
      flatN pre rest acc'

end

/-- `config_flatten`. -/
def config_flatten (cfg : Config) : Except Err FlatConfig :=
  flatN "" cfg []

/-! ### `config_unflatten` (config.py:123-155) -/

/-- Python `key.split(".")` (single-character separator). -/
def splitDot (s : String) : List String :=
  (List.splitOn '.' s.data).map String.mk

/-- Walk/create intermediate dicts for all segments but the last, then set the
final segment; `fullKey` is only used in the error. -/
def insertPath (cfg : Config) (segs : List String) (fullKey : String) (v : FlatVal) :
    Except Err Config :=
  match segs with
  | [] => .error (.keyError fullKey)  -- unreachable: split always returns ≥ 1 piece
  | [k] =>
      if containsK cfg k then .error (.conflict fullKey)
      else .ok (cfg ++ [(k, .leaf v)])
  | k :: rest =>
      match dlookup cfg k with
      | none => do
          let sub ← insertPath [] rest fullKey v
          .ok (cfg ++ [(k, .node sub)])
      | some (.node sub) => do
          let sub' ← insertPath sub rest fullKey v
          .ok (setV cfg k (.node sub'))
      | some (.leaf _) => .error (.conflict fullKey)

/-- Fold of `insertPath` over already-split keys. -/
def unflatGo (cfg : Config) : List (List String × String × FlatVal) → Except Err Config
  | [] => .ok cfg
  | (segs, fullKey, v) :: rest => do
      let cfg' ← insertPath cfg segs fullKey v
      unflatGo cfg' rest

/-- `config_unflatten`. -/
def config_unflatten (flat : FlatConfig) : Except Err Config :=
  unflatGo [] (flat.map (fun kv => (splitDot kv.1, kv.1, kv.2)))

/-! ### `merge` (config.py:158-207) -/

/-- `"__" == key[:2]`. -/
def isDunder (k : String) : Bool :=
  match k.data with
  | '_' :: '_' :: _ => true
  | _ => false

/-- `isinstance(value, type(previous_value))` on the closed value universe.
In Python `bool` is a subclass of `int`, so a boolean overlay value counts as
an instance of an integer base value's type — but not the other way round. -/
def pyIsinstanceSame (value prev : CElem) : Bool :=
  match value, prev with
  | .leaf (.val (.bool _)), .leaf (.val (.bool _)) => true
  | .leaf (.val (.bool _)), .leaf (.val (.int _)) => true  -- isinstance(True, int) is True
  | .leaf (.val (.int _)), .leaf (.val (.int _)) => true
  | .leaf (.val (.float _)), .leaf (.val (.float _)) => true
  | .leaf (.val (.str _)), .leaf (.val (.str _)) => true
  | .leaf (.list _), .leaf (.list _) => true
  | .node _, .node _ => true
  | _, _ => false

mutual

/-- The loop body of `merge`: iterate over the overlay's entries, mutating a
copy of the base; warnings accumulate in emission order. -/
def mergeGo (policy : String) (cfg : Config) : Config → List Warn → Except Err (Config × List Warn)
  | [], ws => .ok (cfg, ws)
  | (key, value) :: rest, ws =>
      match dlookup cfg key with
      | none =>
          if isDunder key then mergeGo policy (cfg ++ [(key, value)]) rest ws
          else if policy = "raise" then .error (.mergeKey key)
          else
            let ws' := if policy = "warn" then ws ++ [.newKey key] else ws
            mergeGo policy (cfg ++ [(key, value)]) rest ws'
      | some prev =>
          if pyIsinstanceSame value prev then do
            let (v', ws') ← mergeSame policy prev value ws
            mergeGo policy (setV cfg key v') rest ws'
          else
            mergeGo policy (setV cfg key value) rest (ws ++ [.typeOverridden key])

/-- The same-variant update: two mappings merge recursively, anything else is
replaced by the overlay value. -/
def mergeSame (policy : String) : CElem → CElem → List Warn → Except Err (CElem × List Warn)
  | .node sub1, .node sub2, ws => do
      let (m, ws') ← mergeGo policy sub1 sub2 ws
      .ok (.node m, ws')
  | _, value, ws => .ok (value, ws)

end

/-- `merge(cfg_1, cfg_2, new_key_policy)` (the Python default policy is
`"warn"`).  The `assert new_key_policy in [...]` guard is the `badPolicy`
error. -/
def merge (cfg1 cfg2 : Config) (policy : String) : Except Err (Config × List Warn) :=
  if policy = "raise" ∨ policy = "warn" ∨ policy = "pass" then mergeGo policy cfg1 cfg2 []
  else .error .badPolicy

/-! ### Environment-variable substitution (config.py:245-247, 312-331) -/

/-- The process environment, injected explicitly (`os.environ`). -/
abbrev Env := List (String × String)

/-- `re.sub(ENV_VAR_REGEXP, env_replace, value)` with
`ENV_VAR_REGEXP = \$([a-zA-Z][a-zA-Z1-9_]*)`: left-to-right scan; a match is
replaced by the environment value (an undefined variable warns and becomes the
empty string); replacements are not rescanned.  The fuel is one unit per
scanned position (`length + 1` always suffices). -/
def envSubBare (env : Env) : Nat → List Char → List Char × List Warn
  | 0, cs => (cs, [])
  | _ + 1, [] => ([], [])
  | fuel + 1, '$' :: rest =>
      match rest with
      | c :: rest' =>
          if isAsciiLetter c then
            let (run, rem) := rest'.span isEnvNameChar
            let name := String.mk (c :: run)
            let (out, ws) := envSubBare env fuel rem
            match dlookup env name with
            | some v => (v.data ++ out, ws)
            | none => (out, .missingEnv name :: ws)
          else
            let (out, ws) := envSubBare env fuel rest
            ('$' :: out, ws)
      | [] => (['$'], [])
  | fuel + 1, ch :: rest =>
      let (out, ws) := envSubBare env fuel rest
      (ch :: out, ws)

/-- `re.sub(ENV_VAR_REGEXP_BRACKET, env_replace, value)` with
`ENV_VAR_REGEXP_BRACKET = \$\{([a-zA-Z][a-zA-Z1-9_]*)\}`. -/
def envSubBracket (env : Env) : Nat → List Char → List Char × List Warn
  | 0, cs => (cs, [])
  | _ + 1, [] => ([], [])
  | fuel + 1, '$' :: rest =>
      match rest with
      | '{' :: c :: r2 =>
          if isAsciiLetter c then
            let (run, rem) := r2.span isEnvNameChar
            match rem with
            | '}' :: rem' =>
                let name := String.mk (c :: run)
                let (out, ws) := envSubBracket env fuel rem'
                (match dlookup env name with
                 | some v => (v.data ++ out, ws)
                 | none => (out, .missingEnv name :: ws))
            | _ =>
                let (out, ws) := envSubBracket env fuel rest
                ('$' :: out, ws)
          else
            let (out, ws) := envSubBracket env fuel rest
            ('$' :: out, ws)
      | _ =>
          let (out, ws) := envSubBracket env fuel rest
          ('$' :: out, ws)
  | fuel + 1, ch :: rest =>
      let (out, ws) := envSubBracket env fuel rest
      (ch :: out, ws)

/-- `Parser.replace_env_reference`: substitute the bare form, then the braced
form, then pass the whole resulting string through `convert_if_possible`. -/
def replace_env_reference (env : Env) (value : String) : CValue × List Warn :=
  let (s1, w1) := envSubBare env (value.data.length + 1) value.data
  let (s2, w2) := envSubBracket env (s1.length + 1) s1
  (convert_if_possible (String.mk s2), w1 ++ w2)

/-! ### Self-reference substitution (config.py:248, 333-360) -/

/-- `re.fullmatch(SELF_REF_REGEXP, value)` with
`SELF_REF_REGEXP = \{([a-zA-Z1-9_.]+)\}`: the whole value is exactly one
reference token; returns the dotted key. -/
def fullmatchSelfRef (s : String) : Option String :=
  match s.data with
  | '{' :: rest =>
      let (run, rem) := rest.span isRefChar
      if run ≠ [] ∧ rem = ['}'] then some (String.mk run) else none
  | _ => none

/-- Try to read `token}` (a reference without its opening brace) at the head
of the character list; returns the key and the remainder after `}`. -/
def attemptRef (rest : List Char) : Option (String × List Char) :=
  let (run, rem) := rest.span isRefChar
  match run, rem with
  | _ :: _, '}' :: rest' => some (String.mk run, rest')
  | _, _ => none

/-! ### The resolver state machine (`Parser`, config.py:235-360) -/

/-- Resolver state: the flattened snapshot plus the two bookkeeping key sets
and the warnings emitted so far. -/
structure PState where
  config : FlatConfig
  parsing : List String
  parsed : List String
  warns : List Warn
deriving DecidableEq, Repr

mutual

/-- `Parser.parse_key` (config.py:262-280): memoized depth-first resolution
with cycle detection.  Every recursive call in this block decreases the fuel;
a fuel of (number of keys + total value size) · constant always suffices. -/
def parseKey (env : Env) : Nat → PState → String → Except Err PState
  | 0, _, _ => .error .outOfFuel
  | fuel + 1, st, key =>
      if key ∈ st.parsed then .ok st
      else if key ∈ st.parsing then .error (.cyclic key)
      else
        match dlookup st.config key with
        | none => .error (.keyError key)  -- self.config[key]: unreachable from parse()
        | some v => do
            let st₁ := { st with parsing := key :: st.parsing }
            let (st₂, v') ← formatV env fuel st₁ v
            let st₃ := { st₂ with config := setV st₂.config key v' }
            .ok { st₃ with parsing := st₃.parsing.erase key, parsed := key :: st₃.parsed }

/-- `Parser.format` (config.py:282-310) on a flat value. -/
def formatV (env : Env) : Nat → PState → FlatVal → Except Err (PState × FlatVal)
  | 0, _, _ => .error .outOfFuel
  | fuel + 1, st, .list l => do
      let (st', l') ← formatList env fuel st l
      .ok (st', .list l')
  | fuel + 1, st, .val v =>
      match v with
      | .str s => formatStr env fuel st s
      | v => .ok (st, .val v)

/-- `list(map(self.format, value))`, threading the resolver state. -/
def formatList (env : Env) : Nat → PState → List CValue → Except Err (PState × List CValue)
  | 0, _, _ => .error .outOfFuel
  | _ + 1, st, [] => .ok (st, [])
  | fuel + 1, st, c :: rest => do
      let (st₁, c') ← formatElem env fuel st c
      let (st₂, rest') ← formatList env fuel st₁ rest
      .ok (st₂, c' :: rest')

/-- `format` of a single list element.  A full-match self-reference to a
list-valued key would nest a list inside a list, which escapes the source's
declared `List[Value]` type; that corner is mapped to `malformed`. -/
def formatElem (env : Env) : Nat → PState → CValue → Except Err (PState × CValue)
  | 0, _, _ => .error .outOfFuel
  | fuel + 1, st, .str s => do
      let (st', r) ← formatStr env fuel st s
      match r with
      | .val v => .ok (st', v)
      | .list _ => .error .malformed
  | _ + 1, st, v => .ok (st, v)

/-- `format` on a string value: the `!P` escape, then environment
substitution (returning early when the value type-converts), then
self-reference substitution. -/
def formatStr (env : Env) : Nat → PState → String → Except Err (PState × FlatVal)
  | 0, _, _ => .error .outOfFuel
  | fuel + 1, st, s =>
      match s.data with
      | '!' :: 'P' :: rest => .ok (st, .val (.str (String.mk rest)))
      | _ =>
          let step :=
            if '$' ∈ s.data then
              let (v, ws) := replace_env_reference env s
              ({ st with warns := st.warns ++ ws },
               match v with
               | .str s' => Sum.inl s'
               | v => Sum.inr v)
            else (st, Sum.inl s)
          match step with
          | (st', Sum.inr v) => .ok (st', .val v)
          | (st', Sum.inl s') =>
              if '{' ∈ s'.data then replaceSelfRef env fuel st' s'
              else .ok (st', .val (.str s'))

/-- `Parser.replace_self_reference` (config.py:333-360): a full match splices
the referenced key's resolved value with its type preserved; otherwise every
token is replaced by the stringified resolved value (unknown keys warn and
become the empty string). -/
def replaceSelfRef (env : Env) : Nat → PState → String → Except Err (PState × FlatVal)
  | 0, _, _ => .error .outOfFuel
  | fuel + 1, st, s =>
      match fullmatchSelfRef s with
      | some key =>
          if containsK st.config key then do
            let st' ← parseKey env fuel st key
            match dlookup st'.config key with
            | some v => .ok (st', v)  -- deepcopy: values are pure here
            | none => .error (.keyError key)
          else do
            let (st', out) ← selfSub env fuel st s.data
            .ok (st', .val (.str (String.mk out)))
      | none => do
          let (st', out) ← selfSub env fuel st s.data
          .ok (st', .val (.str (String.mk out)))

/-- `re.sub(SELF_REF_REGEXP, self_replace, value)`: left-to-right scan; each
reference to a known key is resolved (recursively) and stringified; unknown
keys warn and become the empty string. -/
def selfSub (env : Env) : Nat → PState → List Char → Except Err (PState × List Char)
  | 0, _, _ => .error .outOfFuel
  | _ + 1, st, [] => .ok (st, [])
  | fuel + 1, st, '{' :: rest =>
      (match attemptRef rest with
       | some (key, rest') =>
           if containsK st.config key then do
             let st₁ ← parseKey env fuel st key
             let repl := (pyStrFlat ((dlookup st₁.config key).getD (.val (.str "")))).data
             let (st₂, out) ← selfSub env fuel st₁ rest'
             .ok (st₂, repl ++ out)
           else do
             let (st₁, out) ←
               selfSub env fuel { st with warns := st.warns ++ [.unresolvedRef key] } rest'
             .ok (st₁, out)
       | none => do
           let (st₁, out) ← selfSub env fuel st rest
           .ok (st₁, '{' :: out))
  | fuel + 1, st, ch :: rest => do
      let (st₁, out) ← selfSub env fuel st rest
      .ok (st₁, ch :: out)

end

/-- The loop of `Parser.parse` (config.py:255-260): resolve every key of the
snapshot in order.  Each top-level `parse_key` call starts with full fuel,
matching Python's unbounded recursion. -/
def parseAll (env : Env) (fuel : Nat) : PState → List String → Except Err PState
  | st, [] => .ok st
  | st, k :: rest => do
      let st' ← parseKey env fuel st k
      parseAll env fuel st' rest

/-- `Parser.__init__` state for an already-flattened snapshot. -/
def mkPState (flat : FlatConfig) : PState := ⟨flat, [], [], []⟩

/-- Resolve a flattened snapshot: the state after `Parser.parse`'s loop. -/
def parseFlat (env : Env) (fuel : Nat) (flat : FlatConfig) : Except Err PState :=
  parseAll env fuel (mkPState flat) (flat.map Prod.fst)

/-- `Parser(config).parse()`: flatten, resolve every key, unflatten; also
returns the warnings emitted. -/
def parseConfig (env : Env) (fuel : Nat) (cfg : Config) : Except Err (Config × List Warn) := do
  let flat ← config_flatten cfg
  let st ← parseFlat env fuel flat
  let tree ← config_unflatten st.config
  .ok (tree, st.warns)

/-! ### `load_config` (config.py:25-59) -/

/-- The file system, abstracted to a map from path strings to already
YAML-parsed configuration trees. -/
abbrev FileSystem := List (String × Config)

/-- `pathlib.Path(p).is_absolute()` (POSIX). -/
def pyIsAbsolute (p : String) : Bool :=
  match p.data with
  | '/' :: _ => true
  | _ => false

/-- `pathlib.Path(p).parent` (POSIX). -/
def parentDir (p : String) : String :=
  match p.data.reverse.dropWhile (· ≠ '/') with
  | [] => "."
  | ['/'] => "/"
  | '/' :: rest => String.mk rest.reverse
  | _ => "."

/-- `pathlib.Path(a) / b` for a relative `b` (pathlib collapses spurious
slashes and single-dot components at construction). -/
def joinPath (a b : String) : String :=
  if pyIsAbsolute b then b
  else
    let segs := (List.splitOn '/' b.data).filter (fun seg => seg ≠ [] ∧ seg ≠ ['.'])
    joinSep "/" (a :: segs.map String.mk)

/-- `default_path[0] != "."` (the path is known to be nonempty). -/
def headNeDot (p : String) : Bool :=
  match p.data with
  | c :: _ => c ≠ '.'
  | [] => false

/-- The `__default__` value as a list of path strings: a string means a
singleton list.  Anything else (non-string scalars, lists with non-string
elements, nested mappings, empty path strings) makes the loader's iteration
or indexing raise in Python and is mapped to `malformed`. -/
def defaultPathList : CElem → Option (List String)
  | .leaf (.val (.str s)) => if s = "" then none else some [s]
  | .leaf (.list vs) =>
      if vs.all (fun v => match v with | .str s => s ≠ "" | _ => false) then
        some (vs.filterMap (fun v => match v with | .str s => some s | _ => none))
      else none
  | _ => none

mutual

/-- `load_config`: pop `__default__` (returning the tree as-is, including any
`__new_key_policy__`, when absent), pop `__new_key_policy__` (default
`"warn"`), load and merge the defaults left-to-right under `"pass"`, then
merge the file's own keys on top under the popped policy. -/
def loadConfig (fs : FileSystem) : Nat → String → Except Err (Config × List Warn)
  | 0, _ => .error .outOfFuel
  | fuel + 1, pathStr =>
      match dlookup fs pathStr with
      | none => .error (.notFound pathStr)
      | some cfg =>
          match dpop cfg "__default__" with
          | (none, _) => .ok (cfg, [])
          | (some defv, cfg₁) =>
              let (polv, cfg₂) := dpop cfg₁ "__new_key_policy__"
              let policy : String :=
                match polv with
                | none => "warn"
                | some (.leaf (.val (.str s))) => s
                | some _ => "<non-string policy>"  -- merge's assert rejects it
              match defaultPathList defv with
              | none => .error .malformed
              | some defaults => do
                  let (dcfg, ws) ← loadDefaults fs fuel pathStr defaults [] []
                  let (m, ws') ← merge dcfg cfg₂ policy
                  .ok (m, ws ++ ws')

/-- The `__default__` accumulation loop: absolute paths and paths not
starting with `.` resolve from the current working directory, the rest
relative to the directory of the current file; siblings merge with `"pass"`. -/
def loadDefaults (fs : FileSystem) : Nat → String → List String → Config → List Warn →
    Except Err (Config × List Warn)
  | 0, _, _, _, _ => .error .outOfFuel
  | _ + 1, _, [], acc, ws => .ok (acc, ws)
  | fuel + 1, pathStr, p :: rest, acc, ws => do
      let target :=
        if pyIsAbsolute p || headNeDot p then p
        else joinPath (parentDir pathStr) p
      let (sub, ws₁) ← loadConfig fs fuel target
      let (acc', ws₂) ← merge acc sub "pass"
      loadDefaults fs fuel pathStr rest acc' (ws ++ ws₁ ++ ws₂)

end

/-! ### Spec-side predicates and helper definitions used by the theorems -/

/-- Is a flat value a string? -/
def isStrF : FlatVal → Bool
  | .val (.str _) => true
  | _ => false

/-- Is a scalar a string? -/
def isStrCV : CValue → Bool
  | .str _ => true
  | _ => false

/-- Does the string start with the `NO_PARSE_STRING` escape `"!P"`? -/
def npPrefix (s : String) : Bool :=
  match s.data with
  | '!' :: 'P' :: _ => true
  | _ => false

/-- A scalar the resolver leaves untouched: a non-string, or a string with no
escape marker, no `$` and no `{`. -/
def inertV : CValue → Bool
  | .str s => !npPrefix s && !s.data.contains '$' && !s.data.contains '{'
  | _ => true

/-- An inert flat value (lists element-wise). -/
def inertF : FlatVal → Bool
  | .val v => inertV v
  | .list l => l.all inertV

/-- Every value of the snapshot is inert. -/
def inertAll (c : FlatConfig) : Bool :=
  c.all (fun kv => inertF kv.2)

/-- Enough fuel to format one inert value. -/
def fBound : FlatVal → Nat
  | .val _ => 3
  | .list l => l.length + 3

/-- Enough fuel to re-resolve a snapshot of inert values. -/
def needFuel (c : FlatConfig) : Nat :=
  1 + (c.map (fun kv => fBound kv.2)).foldr max 0

/-- Key of a well-formed tree: nonempty and free of `.` (the data model
forbids dots inside key names). -/
def goodKey (k : String) : Bool :=
  !k.data.isEmpty && !k.data.contains '.'

mutual

/-- Well-formed tree: at every level keys are good and pairwise distinct
(Python dict keys are unique), and every mapping node is nonempty. -/
def wfTree : Config → Bool
  | [] => true
  | (k, e) :: rest => goodKey k && !containsK rest k && wfElem e && wfTree rest

/-- Well-formed entry. -/
def wfElem : CElem → Bool
  | .leaf _ => true
  | .node es => !es.isEmpty && wfTree es

end

mutual

/-- Leaf paths of a tree in depth-first order, as segment lists. -/
def pathsN : Config → List (List String × FlatVal)
  | [] => []
  | (k, e) :: rest => (pathsE e).map (fun pv => (k :: pv.1, pv.2)) ++ pathsN rest

/-- Leaf paths of one entry. -/
def pathsE : CElem → List (List String × FlatVal)
  | .leaf v => [([], v)]
  | .node es => pathsN es

end

/-- Dotted key built from a prefix and path segments (iterated `true_key`). -/
def joinSeg (pre : String) (p : List String) : String :=
  p.foldl joinDot pre

/-- Character-level dot-joining of segments (specification device relating
`joinSeg` to `List.splitOn`). -/
def joinChars : List (List Char) → List Char
  | [] => []
  | [a] => a
  | a :: rest => a ++ '.' :: joinChars rest

/-- Flatten followed by unflatten. -/
def roundTrip (t : Config) : Except Err Config :=
  (config_flatten t).bind config_unflatten

-- `hasNewKey base overlay` is the claim's merge-failure condition, read over
-- the recursive structure of `merge`: the overlay has (at some level reached
-- by the merge recursion, i.e. through keys where both sides hold mappings) a
-- non-`__`-prefixed key absent from the base.
mutual

/-- The claim's failure condition over one overlay entry whose key is present
in the base: a violation can only come from recursing into two mappings. -/
def nestedNewKey : CElem → CElem → Bool
  | .node s1, .node s2 => hasNewKey s1 s2
  | _, _ => false

/-- See the doc comment above (main entry of the mutual pair). -/
def hasNewKey (base : Config) : Config → Bool
  | [] => false
  | (k, v) :: rest =>
      (match dlookup base k with
       | none => !isDunder k
       | some prev => nestedNewKey prev v)
      || hasNewKey base rest

end

mutual

/-- Unique keys at every level of a tree (the Python dict invariant). -/
def dictWF : Config → Bool
  | [] => true
  | (k, e) :: rest => !containsK rest k && elemWF e && dictWF rest

/-- Unique keys inside one entry. -/
def elemWF : CElem → Bool
  | .leaf _ => true
  | .node es => dictWF es

end

/-- Did the computation fail with a `MergeKeyError` (`KeyError` in Python)? -/
def failsMergeKey {α : Type} : Except Err α → Bool
  | .error (.mergeKey _) => true
  | _ => false

/-- Did the computation succeed? -/
def isOkE {α : Type} : Except Err α → Bool
  | .ok _ => true
  | _ => false

/-- Did the computation succeed or fail with a `MergeKeyError`? -/
def okOrMK {α : Type} : Except Err α → Bool
  | .ok _ => true
  | .error (.mergeKey _) => true
  | _ => false

/-! ## Shared lemmas -/

theorem dlookup_mem {α} {c : List (String × α)} {k v} (h : dlookup c k = some v) :
    (k, v) ∈ c := by
  induction c with
  | nil => simp [dlookup] at h
  | cons kv rest ih =>
    obtain ⟨k', v'⟩ := kv
    by_cases hk : k' = k
    · subst hk
      simp [dlookup] at h
      simp [h]
    · simp [dlookup, hk] at h
      exact List.mem_cons_of_mem _ (ih h)

theorem setV_self {α} {c : List (String × α)} {k v} (h : dlookup c k = some v) :
    setV c k v = c := by
  induction c with
  | nil => simp [dlookup] at h
  | cons kv rest ih =>
    obtain ⟨k', v'⟩ := kv
    by_cases hk : k' = k
    · subst hk
      simp [dlookup] at h
      simp [setV, h]
    · simp [dlookup, hk] at h
      simp [setV, hk, ih h]

theorem keys_containsK {α} {c : List (String × α)} {k} (h : k ∈ c.map Prod.fst) :
    containsK c k = true := by
  induction c with
  | nil => simp at h
  | cons kv rest ih =>
    obtain ⟨k', v'⟩ := kv
    simp at h
    by_cases hk : k' = k
    · simp [containsK, dlookup, hk]
    · rcases h with h | h
      · exact absurd h.symm hk
      · simpa [containsK, dlookup, hk] using ih (by simpa using h)

theorem fBound_le_needFuel {c : FlatConfig} {k : String} {v : FlatVal} (h : (k, v) ∈ c) :
    fBound v + 1 ≤ needFuel c := by
  induction c with
  | nil => simp at h
  | cons kv rest ih =>
    rcases List.mem_cons.mp h with h | h
    · subst h
      simp only [needFuel, List.map_cons, List.foldr_cons]
      omega
    · have := ih h
      simp only [needFuel, List.map_cons, List.foldr_cons] at *
      omega

theorem inertF_of_mem {c : FlatConfig} (h : inertAll c = true) {k : String} {v : FlatVal}
    (hm : (k, v) ∈ c) : inertF v = true := by
  simp only [inertAll, List.all_eq_true] at h
  exact h (k, v) hm

theorem formatStr_inert (env : Env) {s : String} (h : inertV (.str s) = true) :
    ∀ {fuel : Nat} (st : PState), 1 ≤ fuel → formatStr env fuel st s = .ok (st, .val (.str s)) := by
  simp only [inertV, Bool.and_eq_true, Bool.not_eq_true'] at h
  obtain ⟨⟨h1, h2⟩, h3⟩ := h
  intro fuel st hf
  cases fuel with
  | zero => simp at hf
  | succ g =>
    have hd : ¬ '$' ∈ s.data := by
      intro hm
      have hx : s.data.contains '$' = true := List.elem_iff.mpr hm
      rw [h2] at hx
      simp at hx
    have hb : ¬ '{' ∈ s.data := by
      intro hm
      have hx : s.data.contains '{' = true := List.elem_iff.mpr hm
      rw [h3] at hx
      simp at hx
    simp only [formatStr]
    split
    · next heq => rw [npPrefix, heq] at h1; simp at h1
    · simp [if_neg hd, if_neg hb]

theorem formatElem_inert (env : Env) {c : CValue} (h : inertV c = true) :
    ∀ {fuel : Nat} (st : PState), 2 ≤ fuel → formatElem env fuel st c = .ok (st, c) := by
  intro fuel st hf
  cases fuel with
  | zero => simp at hf
  | succ g =>
    cases c with
    | str s =>
        have h1 : 1 ≤ g := by omega
        simp [formatElem, formatStr_inert env h st h1, Bind.bind, Except.bind]
    | bool b => simp [formatElem]
    | int n => simp [formatElem]
    | float q => simp [formatElem]

theorem formatList_inert (env : Env) {l : List CValue} (h : l.all inertV = true) :
    ∀ {fuel : Nat} (st : PState), l.length + 2 ≤ fuel →
      formatList env fuel st l = .ok (st, l) := by
  induction l with
  | nil =>
    intro fuel st hf
    cases fuel with
    | zero => simp at hf
    | succ g => simp [formatList]
  | cons c rest ih =>
    intro fuel st hf
    simp only [List.all_cons, Bool.and_eq_true] at h
    cases fuel with
    | zero => simp at hf
    | succ g =>
      have hc : 2 ≤ g := by simp at hf; omega
      have hr : rest.length + 2 ≤ g := by simp at hf; omega
      simp [formatList, formatElem_inert env h.1 st hc, ih h.2 st hr, Bind.bind, Except.bind]

theorem formatV_inert (env : Env) {v : FlatVal} (h : inertF v = true) :
    ∀ {fuel : Nat} (st : PState), fBound v ≤ fuel → formatV env fuel st v = .ok (st, v) := by
  intro fuel st hf
  cases v with
  | val c =>
      cases fuel with
      | zero => simp [fBound] at hf
      | succ g =>
        cases c with
        | str s =>
            have h1 : 1 ≤ g := by simp [fBound] at hf; omega
            simp only [formatV]
            exact formatStr_inert env h st h1
        | bool b => simp [formatV]
        | int n => simp [formatV]
        | float q => simp [formatV]
  | list l =>
      cases fuel with
      | zero => simp [fBound] at hf
      | succ g =>
        have h1 : l.length + 2 ≤ g := by simp [fBound] at hf; omega
        simp [formatV, formatList_inert env h st h1, Bind.bind, Except.bind]

theorem parseKey_inert (env : Env) {st : PState} (hin : inertAll st.config = true)
    (hp : st.parsing = []) {k : String} (hk : containsK st.config k = true)
    {fuel : Nat} (hf : needFuel st.config ≤ fuel) :
    parseKey env fuel st k
      = .ok (if k ∈ st.parsed then st else { st with parsed := k :: st.parsed }) := by
  obtain ⟨c, p, d, w⟩ := st
  dsimp only at hp hin hk hf ⊢
  subst hp
  have h1 : 1 ≤ fuel := by
    refine Nat.le_trans ?_ hf
    unfold needFuel
    omega
  cases fuel with
  | zero => simp at h1
  | succ g =>
    by_cases hd : k ∈ d
    · simp [parseKey, hd]
    · simp only [containsK, Option.isSome_iff_exists] at hk
      obtain ⟨v, hv⟩ := hk
      have hmem := dlookup_mem hv
      have hiv : inertF v = true := inertF_of_mem hin hmem
      have hb : fBound v ≤ g := by
        have := fBound_le_needFuel (c := c) hmem
        omega
      simp only [parseKey, hd, if_neg hd, List.mem_nil_iff, if_false, hv]
      simp [formatV_inert env hiv _ hb, Bind.bind, Except.bind, setV_self hv, hd]

theorem parseAll_inert (env : Env) :
    ∀ (ks : List String) (st : PState), inertAll st.config = true → st.parsing = [] →
      (∀ k ∈ ks, containsK st.config k = true) →
      ∀ (fuel : Nat), needFuel st.config ≤ fuel →
      ∃ st', parseAll env fuel st ks = .ok st'
        ∧ st'.config = st.config ∧ st'.warns = st.warns ∧ st'.parsing = st.parsing := by
  intro ks
  induction ks with
  | nil => intro st _ _ _ _ _; exact ⟨st, rfl, rfl, rfl, rfl⟩
  | cons k rest ih =>
    intro st hin hp hks fuel hf
    have hkk := hks k (List.mem_cons_self _ _)
    have hpk := parseKey_inert env hin hp hkk hf
    set st₁ := if k ∈ st.parsed then st else { st with parsed := k :: st.parsed } with hst₁
    have hc : st₁.config = st.config := by
      by_cases hd : k ∈ st.parsed <;> simp [hst₁, hd]
    have hw : st₁.warns = st.warns := by
      by_cases hd : k ∈ st.parsed <;> simp [hst₁, hd]
    have hpp : st₁.parsing = st.parsing := by
      by_cases hd : k ∈ st.parsed <;> simp [hst₁, hd]
    obtain ⟨st', h', hc', hw', hp'⟩ :=
      ih st₁ (by rw [hc]; exact hin) (by rw [hpp]; exact hp)
        (fun k' hk' => by rw [hc]; exact hks k' (List.mem_cons_of_mem _ hk'))
        fuel (by rw [hc]; exact hf)
    refine ⟨st', ?_, by rw [hc', hc], by rw [hw', hw], by rw [hp', hpp]⟩
    simp [parseAll, hpk, Bind.bind, Except.bind, h']

theorem dlookup_append_ne {α} {c : List (String × α)} {k₀ k : String} {v : α} (h : k₀ ≠ k) :
    dlookup (c ++ [(k₀, v)]) k = dlookup c k := by
  induction c with
  | nil => simp [dlookup, h]
  | cons kv rest ih =>
    by_cases hk : kv.1 = k
    · simp [dlookup, hk]
    · simp [dlookup, hk, ih]

theorem dlookup_append_self {α} {c : List (String × α)} {k : String} {v : α}
    (h : dlookup c k = none) : dlookup (c ++ [(k, v)]) k = some v := by
  induction c with
  | nil => simp [dlookup]
  | cons kv rest ih =>
    by_cases hk : kv.1 = k
    · simp [dlookup, hk] at h
    · simp [dlookup, hk] at h ⊢
      exact ih h

theorem dlookup_setV_ne {α} {c : List (String × α)} {k₀ k : String} {v : α} (h : k₀ ≠ k) :
    dlookup (setV c k₀ v) k = dlookup c k := by
  induction c with
  | nil => simp [setV, dlookup, h]
  | cons kv rest ih =>
    obtain ⟨k1, v1⟩ := kv
    simp only [setV]
    by_cases hk : k1 = k₀
    · rw [if_pos hk]
      have h1 : k1 ≠ k := by rw [hk]; exact h
      simp [dlookup, h1]
    · rw [if_neg hk]
      by_cases hk2 : k1 = k <;> simp [dlookup, hk2, ih]

theorem hasNewKey_congr : ∀ (b : Config) {a₁ a₂ : Config},
    (∀ k ∈ b.map Prod.fst, dlookup a₁ k = dlookup a₂ k) →
    hasNewKey a₁ b = hasNewKey a₂ b := by
  intro b
  induction b with
  | nil => intro a₁ a₂ _; simp [hasNewKey]
  | cons kv rest ih =>
    intro a₁ a₂ hk
    obtain ⟨k, v⟩ := kv
    have h1 : dlookup a₁ k = dlookup a₂ k := hk k (by simp)
    have h2 := ih (fun k' hk' => hk k' (by simp [hk']))
    simp only [hasNewKey, h1, h2]

mutual

theorem mergeGo_okOrMK : ∀ (ov cfg : Config) (ws : List Warn),
    okOrMK (mergeGo "raise" cfg ov ws) = true
  | [], cfg, ws => by simp [mergeGo, okOrMK]
  | (k, v) :: rest, cfg, ws => by
      rw [mergeGo]
      cases hl : dlookup cfg k with
      | none =>
        by_cases hd : isDunder k
        · simpa [hd] using mergeGo_okOrMK rest (cfg ++ [(k, v)]) ws
        · simp [hd, okOrMK]
      | some prev =>
        by_cases hs : pyIsinstanceSame v prev
        · cases hms : mergeSame "raise" prev v ws with
          | error e =>
            have h1 := mergeSame_okOrMK prev v ws
            rw [hms] at h1
            simp only [hs, if_true, hms, Bind.bind, Except.bind]
            cases e <;> simp [okOrMK] at h1 ⊢
          | ok p =>
            simpa [hs, hms, Bind.bind, Except.bind] using
              mergeGo_okOrMK rest (setV cfg k p.1) p.2
        · simpa [hs] using mergeGo_okOrMK rest (setV cfg k v) (ws ++ [.typeOverridden k])

theorem mergeSame_okOrMK : ∀ (prev v : CElem) (ws : List Warn),
    okOrMK (mergeSame "raise" prev v ws) = true
  | .node s1, .node s2, ws => by
      rw [mergeSame]
      cases hm : mergeGo "raise" s1 s2 ws with
      | error e =>
        have h1 := mergeGo_okOrMK s2 s1 ws
        rw [hm] at h1
        simp only [Bind.bind, Except.bind]
        cases e <;> simp [okOrMK] at h1 ⊢
      | ok p => simp [Bind.bind, Except.bind, okOrMK]
  | .node _, .leaf _, ws => by simp [mergeSame, okOrMK]
  | .leaf _, v, ws => by simp [mergeSame, okOrMK]

end

mutual

theorem mergeGo_raise_fails : ∀ (ov cfg : Config) (ws : List Warn), dictWF ov = true →
    failsMergeKey (mergeGo "raise" cfg ov ws) = hasNewKey cfg ov
  | [], cfg, ws => by intro _; simp [mergeGo, hasNewKey, failsMergeKey]
  | (k, v) :: rest, cfg, ws => by
      intro hwf
      simp only [dictWF, Bool.and_eq_true, Bool.not_eq_true'] at hwf
      obtain ⟨⟨hkr, hev⟩, hwr⟩ := hwf
      have hcongr : ∀ (a₂ : Config),
          (∀ k', k ≠ k' → dlookup a₂ k' = dlookup cfg k') →
          hasNewKey a₂ rest = hasNewKey cfg rest := by
        intro a₂ hch
        refine hasNewKey_congr rest (fun k' hk' => ?_)
        have hne : k ≠ k' := by
          intro he
          rw [he] at hkr
          rw [keys_containsK hk'] at hkr
          simp at hkr
        exact hch k' hne
      rw [mergeGo]
      cases hl : dlookup cfg k with
      | none =>
        by_cases hd : isDunder k
        · have h2 := mergeGo_raise_fails rest (cfg ++ [(k, v)]) ws hwr
          rw [hcongr _ (fun k' hne => dlookup_append_ne hne)] at h2
          simp [hd, h2, hasNewKey, hl]
        · simp [hd, hasNewKey, hl, failsMergeKey]
      | some prev =>
        by_cases hs : pyIsinstanceSame v prev
        · cases hms : mergeSame "raise" prev v ws with
          | error e =>
            have h1 := mergeSame_raise_fails prev v ws hev
            have h2 := mergeSame_okOrMK prev v ws
            rw [hms] at h1 h2
            simp only [hs, if_true, hms, Bind.bind, Except.bind, hasNewKey, hl]
            cases e with
            | mergeKey k' =>
              simp [failsMergeKey] at h1 ⊢
              simp [← h1]
            | cyclic k' => simp [okOrMK] at h2
            | conflict k' => simp [okOrMK] at h2
            | badPolicy => simp [okOrMK] at h2
            | keyError k' => simp [okOrMK] at h2
            | notFound p' => simp [okOrMK] at h2
            | malformed => simp [okOrMK] at h2
            | outOfFuel => simp [okOrMK] at h2
          | ok p =>
            have h1 := mergeSame_raise_fails prev v ws hev
            rw [hms] at h1
            simp only [failsMergeKey] at h1
            have h2 := mergeGo_raise_fails rest (setV cfg k p.1) p.2 hwr
            rw [hcongr _ (fun k' hne => dlookup_setV_ne hne)] at h2
            simp [hs, hms, Bind.bind, Except.bind, hasNewKey, hl, h2, ← h1]
        · have hmatch : nestedNewKey prev v = false := by
            cases prev <;> cases v <;> simp_all [pyIsinstanceSame, nestedNewKey]
          have h2 := mergeGo_raise_fails rest (setV cfg k v) (ws ++ [.typeOverridden k]) hwr
          rw [hcongr _ (fun k' hne => dlookup_setV_ne hne)] at h2
          simp [hs, hasNewKey, hl, h2, hmatch]

theorem mergeSame_raise_fails : ∀ (prev v : CElem) (ws : List Warn), elemWF v = true →
    failsMergeKey (mergeSame "raise" prev v ws) = nestedNewKey prev v
  | .node s1, .node s2, ws => by
      intro hwf
      rw [mergeSame]
      have h1 := mergeGo_raise_fails s2 s1 ws (by simpa [elemWF] using hwf)
      cases hm : mergeGo "raise" s1 s2 ws with
      | error e =>
        rw [hm] at h1
        simp only [Bind.bind, Except.bind, nestedNewKey]
        cases e <;> simp [failsMergeKey] at h1 ⊢ <;> simp [← h1]
      | ok p =>
        rw [hm] at h1
        simp only [failsMergeKey] at h1
        simp [Bind.bind, Except.bind, failsMergeKey, nestedNewKey, ← h1]
  | .node _, .leaf _, ws => by intro _; simp [mergeSame, failsMergeKey, nestedNewKey]
  | .leaf _, .leaf _, ws => by intro _; simp [mergeSame, failsMergeKey, nestedNewKey]
  | .leaf _, .node _, ws => by intro _; simp [mergeSame, failsMergeKey, nestedNewKey]

end

theorem mergeGo_preserve {policy : String} :
    ∀ {ov : Config} {cfg : Config} {ws : List Warn} {r : Config} {w : List Warn},
      mergeGo policy cfg ov ws = .ok (r, w) →
      ∀ {k : String}, containsK ov k = false → dlookup r k = dlookup cfg k := by
  intro ov
  induction ov with
  | nil =>
    intro cfg ws r w h k _
    simp [mergeGo] at h
    rw [h.1]
  | cons kv rest ih =>
    intro cfg ws r w h k hk
    obtain ⟨k₀, v₀⟩ := kv
    have hk₀ : k₀ ≠ k := by
      intro he
      subst he
      simp [containsK, dlookup] at hk
    have hkr : containsK rest k = false := by
      simp [containsK, dlookup, hk₀] at hk
      simp [containsK, hk]
    rw [mergeGo] at h
    cases hl : dlookup cfg k₀ with
    | none =>
      simp only [hl] at h
      by_cases hd : isDunder k₀
      · rw [if_pos hd] at h
        rw [ih h hkr, dlookup_append_ne hk₀]
      · rw [if_neg hd] at h
        by_cases hp : policy = "raise"
        · rw [if_pos hp] at h; exact absurd h (by simp)
        · rw [if_neg hp] at h
          rw [ih h hkr, dlookup_append_ne hk₀]
    | some prev =>
      simp only [hl] at h
      by_cases hs : pyIsinstanceSame v₀ prev
      · rw [if_pos hs] at h
        cases hms : mergeSame policy prev v₀ ws with
        | error e => rw [hms] at h; exact absurd h (by simp [Bind.bind, Except.bind])
        | ok p =>
          rw [hms] at h
          simp only [Bind.bind, Except.bind] at h
          rw [ih h hkr, dlookup_setV_ne hk₀]
      · rw [if_neg hs] at h
        rw [ih h hkr, dlookup_setV_ne hk₀]

theorem mergeGo_insert_absent {policy : String} :
    ∀ {ov : Config} {cfg : Config} {ws : List Warn} {r : Config} {w : List Warn},
      dictWF ov = true → mergeGo policy cfg ov ws = .ok (r, w) →
      ∀ {k : String} {v : CElem}, dlookup cfg k = none → dlookup ov k = some v →
        dlookup r k = some v := by
  intro ov
  induction ov with
  | nil => intro _ _ _ _ _ _ _ _ _ hov; simp [dlookup] at hov
  | cons kv rest ih =>
    intro cfg ws r w hwf h k v hc hov
    obtain ⟨k₀, v₀⟩ := kv
    simp only [dictWF, Bool.and_eq_true, Bool.not_eq_true'] at hwf
    obtain ⟨⟨hkr, -⟩, hwr⟩ := hwf
    rw [mergeGo] at h
    by_cases hkk : k₀ = k
    · subst hkk
      simp only [dlookup, if_pos rfl] at hov
      rw [hc] at h
      have hfin : ∀ cfg₁ ws₁, dlookup cfg₁ k₀ = some v →
          mergeGo policy cfg₁ rest ws₁ = .ok (r, w) → dlookup r k₀ = some v := by
        intro cfg₁ ws₁ hc₁ h₁
        rw [mergeGo_preserve h₁ hkr, hc₁]
      cases hov
      by_cases hd : isDunder k₀
      · rw [if_pos hd] at h
        exact hfin _ _ (dlookup_append_self hc) h
      · rw [if_neg hd] at h
        by_cases hp : policy = "raise"
        · rw [if_pos hp] at h; exact absurd h (by simp)
        · rw [if_neg hp] at h
          exact hfin _ _ (dlookup_append_self hc) h
    · have hov' : dlookup rest k = some v := by
        simpa [dlookup, hkk] using hov
      cases hl : dlookup cfg k₀ with
      | none =>
        simp only [hl] at h
        have hc' : dlookup (cfg ++ [(k₀, v₀)]) k = none := by
          rw [dlookup_append_ne hkk, hc]
        by_cases hd : isDunder k₀
        · rw [if_pos hd] at h
          exact ih hwr h hc' hov'
        · rw [if_neg hd] at h
          by_cases hp : policy = "raise"
          · rw [if_pos hp] at h; exact absurd h (by simp)
          · rw [if_neg hp] at h
            exact ih hwr h hc' hov'
      | some prev =>
        simp only [hl] at h
        by_cases hs : pyIsinstanceSame v₀ prev
        · rw [if_pos hs] at h
          cases hms : mergeSame policy prev v₀ ws with
          | error e => rw [hms] at h; exact absurd h (by simp [Bind.bind, Except.bind])
          | ok p =>
            rw [hms] at h
            simp only [Bind.bind, Except.bind] at h
            exact ih hwr h (by rw [dlookup_setV_ne hkk, hc]) hov'
        · rw [if_neg hs] at h
          exact ih hwr h (by rw [dlookup_setV_ne hkk, hc]) hov'

theorem dlookup_removeK_self {α} {c : List (String × α)} {k : String} :
    dlookup (removeK c k) k = none := by
  induction c with
  | nil => simp [removeK, dlookup]
  | cons kv rest ih =>
    by_cases hk : kv.1 = k
    · simpa [removeK, hk] using ih
    · simpa [removeK, hk, dlookup] using ih

theorem containsK_append {α} {l₁ l₂ : List (String × α)} {k : String} :
    containsK (l₁ ++ l₂) k = (containsK l₁ k || containsK l₂ k) := by
  induction l₁ with
  | nil => simp [containsK, dlookup]
  | cons kv rest ih =>
    by_cases hk : kv.1 = k
    · simp [containsK, dlookup, hk]
    · simp [containsK, dlookup, hk] at ih ⊢
      simp [ih]

theorem containsK_eq_false_iff {α} {c : List (String × α)} {k : String} :
    containsK c k = false ↔ k ∉ c.map Prod.fst := by
  induction c with
  | nil => simp [containsK, dlookup]
  | cons kv rest ih =>
    by_cases hk : kv.1 = k
    · simp [containsK, dlookup, hk]
    · simp [containsK, dlookup, hk, Ne.symm hk] at ih ⊢
      exact ih

theorem dlookup_setV_self {α} {c : List (String × α)} {k : String} {v : α} :
    dlookup (setV c k v) k = some v := by
  induction c with
  | nil => simp [setV, dlookup]
  | cons kv rest ih =>
    by_cases hk : kv.1 = k <;> simp [setV, hk, dlookup, ih]

theorem setV_setV {α} {c : List (String × α)} {k : String} {a b : α} :
    setV (setV c k a) k b = setV c k b := by
  induction c with
  | nil => simp [setV]
  | cons kv rest ih =>
    by_cases hk : kv.1 = k <;> simp [setV, hk, ih]

theorem setV_append_self {α} {c : List (String × α)} {k : String} {a b : α}
    (h : containsK c k = false) : setV (c ++ [(k, a)]) k b = c ++ [(k, b)] := by
  induction c with
  | nil => simp [setV]
  | cons kv rest ih =>
    by_cases hk : kv.1 = k
    · simp [containsK, dlookup, hk] at h
    · have h' : containsK rest k = false := by
        simp [containsK, dlookup, hk] at h
        simp [containsK, h]
      simp [setV, hk, ih h']

theorem joinChars_cons {x : List Char} {l : List (List Char)} (h : l ≠ []) :
    joinChars (x :: l) = x ++ '.' :: joinChars l := by
  cases l with
  | nil => exact absurd rfl h
  | cons y rest => rfl

theorem joinChars_glue (x y : List Char) (l : List (List Char)) :
    joinChars ((x ++ '.' :: y) :: l) = x ++ '.' :: joinChars (y :: l) := by
  cases l with
  | nil => rfl
  | cons z zs =>
    rw [joinChars_cons (l := z :: zs) (by simp), joinChars_cons (l := z :: zs) (by simp)]
    simp

theorem foldl_joinDot_data : ∀ (rest : List String) (k : String), k ≠ "" →
    (List.foldl joinDot k rest).data = joinChars ((k :: rest).map String.data) := by
  intro rest
  induction rest with
  | nil => intro k _; simp [joinChars]
  | cons k₂ rest ih =>
    intro k hk
    have hj : joinDot k k₂ = k ++ "." ++ k₂ := by simp [joinDot, hk]
    have hdata : (k ++ "." ++ k₂).data = k.data ++ '.' :: k₂.data := by
      simp [String.data_append]
    have hne2 : joinDot k k₂ ≠ "" := by
      rw [hj]
      intro he
      have h3 : (k ++ "." ++ k₂).data = ("" : String).data := congrArg String.data he
      rw [hdata] at h3
      simp at h3
    have hrec := ih (joinDot k k₂) hne2
    simp only [List.foldl_cons]
    rw [hrec]
    simp only [List.map_cons, hj, hdata]
    rw [joinChars_glue]
    exact (joinChars_cons (by simp)).symm

theorem joinSeg_data : ∀ (p : List String), p ≠ [] → (∀ s ∈ p, s ≠ "") →
    (joinSeg "" p).data = joinChars (p.map String.data) := by
  intro p hp hgood
  cases p with
  | nil => exact absurd rfl hp
  | cons k rest =>
    have hk : k ≠ "" := hgood k (by simp)
    have h0 : joinDot "" k = k := by simp [joinDot]
    simp only [joinSeg, List.foldl_cons, h0]
    exact foldl_joinDot_data rest k hk

theorem splitChars_joinChars : ∀ (ps : List (List Char)), ps ≠ [] →
    (∀ l ∈ ps, '.' ∉ l) → List.splitOn '.' (joinChars ps) = ps := by
  intro ps
  induction ps with
  | nil => intro h _; exact absurd rfl h
  | cons a rest ih =>
    intro _ hdot
    have ha : ∀ x ∈ a, ¬((x == '.') = true) := by
      intro x hx hc
      rw [beq_iff_eq] at hc
      subst hc
      exact hdot a (by simp) hx
    cases rest with
    | nil => exact List.splitOnP_eq_single _ _ ha
    | cons b rs =>
      rw [joinChars_cons (by simp)]
      show List.splitOnP (· == '.') (a ++ '.' :: joinChars (b :: rs)) = _
      rw [List.splitOnP_first _ _ ha '.' (by simp)]
      have := ih (by simp) (fun l hl => hdot l (by simp [hl]))
      simp only [List.splitOn] at this
      rw [this]

theorem goodKey_ne_empty {s : String} (h : goodKey s = true) : s ≠ "" := by
  simp only [goodKey, Bool.and_eq_true, Bool.not_eq_true'] at h
  obtain ⟨h1, -⟩ := h
  intro he
  rw [he] at h1
  simp at h1

theorem goodKey_no_dot {s : String} (h : goodKey s = true) : '.' ∉ s.data := by
  simp only [goodKey, Bool.and_eq_true, Bool.not_eq_true'] at h
  intro hm
  have hx : s.data.contains '.' = true := List.elem_iff.mpr hm
  rw [h.2] at hx
  simp at hx

theorem splitDot_joinSeg : ∀ (p : List String), p ≠ [] → (∀ s ∈ p, goodKey s = true) →
    splitDot (joinSeg "" p) = p := by
  intro p hp hgood
  unfold splitDot
  rw [joinSeg_data p hp (fun s hs => goodKey_ne_empty (hgood s hs))]
  rw [splitChars_joinChars (p.map String.data) (by simpa using hp)
    (by intro l hl
        simp only [List.mem_map] at hl
        obtain ⟨s, hs, rfl⟩ := hl
        exact goodKey_no_dot (hgood s hs))]
  rw [List.map_map]
  exact (List.map_congr_left (fun s _ => rfl)).trans (List.map_id p)

theorem map_data_injective {p₁ p₂ : List String}
    (h : p₁.map String.data = p₂.map String.data) : p₁ = p₂ := by
  have h2 := congrArg (List.map String.mk) h
  rw [List.map_map, List.map_map] at h2
  have e1 : List.map (String.mk ∘ String.data) p₁ = p₁ :=
    (List.map_congr_left (fun s _ => rfl)).trans (List.map_id _)
  have e2 : List.map (String.mk ∘ String.data) p₂ = p₂ :=
    (List.map_congr_left (fun s _ => rfl)).trans (List.map_id _)
  rw [e1, e2] at h2
  exact h2

theorem goodPath_no_dot {p : List String} (hgood : ∀ s ∈ p, goodKey s = true) :
    ∀ l ∈ p.map String.data, '.' ∉ l := by
  intro l hl
  simp only [List.mem_map] at hl
  obtain ⟨s, hs, rfl⟩ := hl
  exact goodKey_no_dot (hgood s hs)

theorem joinSeg_inj (pre : String) {p₁ p₂ : List String} (h₁ : p₁ ≠ []) (h₂ : p₂ ≠ [])
    (hg₁ : ∀ s ∈ p₁, goodKey s = true) (hg₂ : ∀ s ∈ p₂, goodKey s = true)
    (h : joinSeg pre p₁ = joinSeg pre p₂) : p₁ = p₂ := by
  by_cases hpre : pre = ""
  · subst hpre
    calc p₁ = splitDot (joinSeg "" p₁) := (splitDot_joinSeg p₁ h₁ hg₁).symm
    _ = splitDot (joinSeg "" p₂) := by rw [h]
    _ = p₂ := splitDot_joinSeg p₂ h₂ hg₂
  · have hd := congrArg String.data h
    simp only [joinSeg] at hd
    rw [foldl_joinDot_data p₁ pre hpre, foldl_joinDot_data p₂ pre hpre] at hd
    simp only [List.map_cons] at hd
    rw [joinChars_cons (by simpa using h₁), joinChars_cons (by simpa using h₂)] at hd
    have hj : joinChars (p₁.map String.data) = joinChars (p₂.map String.data) := by
      have := List.append_cancel_left hd
      exact List.cons.inj this |>.2
    have hmaps : p₁.map String.data = p₂.map String.data := by
      calc p₁.map String.data
          = List.splitOn '.' (joinChars (p₁.map String.data)) :=
            (splitChars_joinChars _ (by simpa using h₁) (goodPath_no_dot hg₁)).symm
      _ = List.splitOn '.' (joinChars (p₂.map String.data)) := by rw [hj]
      _ = p₂.map String.data := splitChars_joinChars _ (by simpa using h₂) (goodPath_no_dot hg₂)
    exact map_data_injective hmaps

mutual

theorem pathsN_good : ∀ (es : Config), wfTree es = true →
    ∀ pv ∈ pathsN es, pv.1 ≠ [] ∧ ∀ s ∈ pv.1, goodKey s = true
  | [], _, pv, hm => by simp [pathsN] at hm
  | (k, e) :: rest, hwf, pv, hm => by
      simp only [wfTree, Bool.and_eq_true] at hwf
      obtain ⟨⟨⟨hgk, -⟩, hwe⟩, hwr⟩ := hwf
      simp only [pathsN, List.mem_append, List.mem_map] at hm
      rcases hm with ⟨q, hq, rfl⟩ | hm
      · refine ⟨by simp, ?_⟩
        intro s hs
        rcases List.mem_cons.mp hs with rfl | hs
        · exact hgk
        · exact pathsE_good e hwe q hq s hs
      · exact pathsN_good rest hwr pv hm

theorem pathsE_good : ∀ (e : CElem), wfElem e = true →
    ∀ pv ∈ pathsE e, ∀ s ∈ pv.1, goodKey s = true
  | .leaf v, _, pv, hm => by
      simp only [pathsE, List.mem_singleton] at hm
      subst hm
      simp
  | .node es, hwf, pv, hm => by
      simp only [wfElem, Bool.and_eq_true] at hwf
      exact (pathsN_good es hwf.2 pv hm).2

end

theorem pathsE_ne_nil : ∀ (e : CElem), wfElem e = true → pathsE e ≠ []
  | .leaf v, _ => by simp [pathsE]
  | .node es, hwf => by
      simp only [wfElem, Bool.and_eq_true] at hwf
      obtain ⟨hne, hwt⟩ := hwf
      cases es with
      | nil => simp at hne
      | cons hd tl =>
        obtain ⟨k₀, e₀⟩ := hd
        simp only [wfTree, Bool.and_eq_true] at hwt
        have he₀ := pathsE_ne_nil e₀ hwt.1.2
        simp only [pathsE, pathsN]
        intro habs
        rw [List.append_eq_nil] at habs
        rw [List.map_eq_nil_iff] at habs
        exact he₀ habs.1

theorem joinSeg_cons {pre k : String} {p : List String} :
    joinSeg pre (k :: p) = joinSeg (joinDot pre k) p := rfl

theorem pathsN_head_mem : ∀ {es : Config} {pv : List String × FlatVal}, pv ∈ pathsN es →
    ∃ kh t, pv.1 = kh :: t ∧ kh ∈ es.map Prod.fst := by
  intro es
  induction es with
  | nil => intro pv hm; simp [pathsN] at hm
  | cons kv rest ih =>
    intro pv hm
    obtain ⟨k, e⟩ := kv
    simp only [pathsN, List.mem_append, List.mem_map] at hm
    rcases hm with ⟨q, -, rfl⟩ | hm
    · exact ⟨k, q.1, rfl, by simp⟩
    · obtain ⟨kh, t, h1, h2⟩ := ih hm
      exact ⟨kh, t, h1, by simp [h2]⟩

mutual

theorem flatN_eq : ∀ (es : Config), wfTree es = true → ∀ (pre : String) (acc : FlatConfig),
    (∀ pv ∈ pathsN es, containsK acc (joinSeg pre pv.1) = false) →
    flatN pre es acc = .ok (acc ++ (pathsN es).map (fun pv => (joinSeg pre pv.1, pv.2)))
  | [], _, pre, acc, _ => by simp [flatN, pathsN]
  | (k, e) :: rest, hwf, pre, acc, hfresh => by
      simp only [wfTree, Bool.and_eq_true, Bool.not_eq_true'] at hwf
      obtain ⟨⟨⟨hgk, hck⟩, hwe⟩, hwr⟩ := hwf
      have hstep := flatE_eq e hwe (joinDot pre k) acc (fun pv hpv => by
        have := hfresh (k :: pv.1, pv.2) (by
          simp only [pathsN, List.mem_append, List.mem_map]
          exact Or.inl ⟨pv, hpv, rfl⟩)
        rwa [joinSeg_cons] at this)
      rw [flatN, hstep]
      simp only [Bind.bind, Except.bind]
      set mapE := (pathsE e).map
        (fun pv => (joinSeg (joinDot pre k) pv.1, pv.2)) with hmapE
      have hfreshR : ∀ pv ∈ pathsN rest, containsK (acc ++ mapE) (joinSeg pre pv.1) = false := by
        intro pv hpv
        rw [containsK_append]
        have h1 : containsK acc (joinSeg pre pv.1) = false :=
          hfresh pv (by simp only [pathsN, List.mem_append]; exact Or.inr hpv)
        have h2 : containsK mapE (joinSeg pre pv.1) = false := by
          rw [containsK_eq_false_iff]
          intro hmem
          simp only [hmapE, List.map_map, List.mem_map, Function.comp] at hmem
          obtain ⟨q, hq, hqe⟩ := hmem
          rw [← joinSeg_cons] at hqe
          obtain ⟨kh, t, hpv1, hkh⟩ := pathsN_head_mem hpv
          have hrgood := pathsN_good rest hwr pv hpv
          have heq : pv.1 = k :: q.1 := by
            refine (joinSeg_inj pre (by rw [hpv1]; simp) (by simp) hrgood.2 ?_ hqe.symm)
            intro s hs
            rcases List.mem_cons.mp hs with rfl | hs
            · exact hgk
            · exact pathsE_good e hwe q hq s hs
          rw [hpv1] at heq
          have : kh = k := (List.cons.inj heq).1
          rw [this] at hkh
          rw [containsK_eq_false_iff] at hck
          exact hck hkh
        rw [h1, h2]
        rfl
      rw [flatN_eq rest hwr pre (acc ++ mapE) hfreshR]
      simp only [pathsN, List.map_append, List.map_map, List.append_assoc]
      refine congrArg Except.ok (congrArg _ (congrArg (· ++ _) ?_))
      exact List.map_congr_left (fun pv _ => by rw [Function.comp, ← joinSeg_cons])

theorem flatE_eq : ∀ (e : CElem), wfElem e = true → ∀ (tk : String) (acc : FlatConfig),
    (∀ pv ∈ pathsE e, containsK acc (joinSeg tk pv.1) = false) →
    flatE tk e acc = .ok (acc ++ (pathsE e).map (fun pv => (joinSeg tk pv.1, pv.2)))
  | .leaf v, _, tk, acc, hfresh => by
      have hc : containsK acc tk = false := hfresh ([], v) (by simp [pathsE])
      simp [flatE, hc, pathsE, joinSeg]
  | .node sub, hwf, tk, acc, hfresh => by
      simp only [wfElem, Bool.and_eq_true] at hwf
      simp only [flatE, pathsE]
      exact flatN_eq sub hwf.2 tk acc hfresh

end

theorem containsK_false_lookup {α} {c : List (String × α)} {k : String}
    (h : containsK c k = false) : dlookup c k = none := by
  cases hl : dlookup c k with
  | none => rfl
  | some v => rw [containsK, hl] at h; simp at h

theorem unflatGo_append : ∀ (l₁ l₂ : List (List String × String × FlatVal)) (cfg : Config),
    unflatGo cfg (l₁ ++ l₂)
      = match unflatGo cfg l₁ with
        | .ok c => unflatGo c l₂
        | .error e => .error e := by
  intro l₁
  induction l₁ with
  | nil => intro l₂ cfg; simp [unflatGo]
  | cons x rest ih =>
    intro l₂ cfg
    obtain ⟨segs, fk, v⟩ := x
    simp only [List.cons_append, unflatGo]
    cases hins : insertPath cfg segs fk v with
    | error e => simp [Bind.bind, Except.bind]
    | ok c => simp [Bind.bind, Except.bind, ih]

theorem insertPath_fresh {cfg : Config} {k : String} (h : dlookup cfg k = none)
    {p₁ : String} {pr : List String} {fk : String} {v : FlatVal} :
    insertPath cfg (k :: p₁ :: pr) fk v
      = match insertPath [] (p₁ :: pr) fk v with
        | .ok sub => .ok (cfg ++ [(k, .node sub)])
        | .error e => .error e := by
  simp only [insertPath, h]
  cases hins : insertPath [] (p₁ :: pr) fk v <;> simp [Bind.bind, Except.bind, hins]

theorem insertPath_route {cfg : Config} {k : String} {inner : Config}
    (h : dlookup cfg k = some (.node inner))
    {p₁ : String} {pr : List String} {fk : String} {v : FlatVal} :
    insertPath cfg (k :: p₁ :: pr) fk v
      = match insertPath inner (p₁ :: pr) fk v with
        | .ok sub => .ok (setV cfg k (.node sub))
        | .error e => .error e := by
  simp only [insertPath, h]
  cases hins : insertPath inner (p₁ :: pr) fk v <;> simp [Bind.bind, Except.bind, hins]

theorem unflatGo_route : ∀ (pvs : List (List String × String × FlatVal)) (cfg : Config)
    (k : String) (inner : Config), dlookup cfg k = some (.node inner) →
    (∀ pv ∈ pvs, pv.1 ≠ []) →
    unflatGo cfg (pvs.map (fun pv => (k :: pv.1, pv.2.1, pv.2.2)))
      = match unflatGo inner pvs with
        | .ok s => .ok (setV cfg k (.node s))
        | .error e => .error e := by
  intro pvs
  induction pvs with
  | nil => intro cfg k inner hl _; simp [unflatGo, List.map_nil, setV_self hl]
  | cons q qs ih =>
    intro cfg k inner hl hne
    obtain ⟨p, fk, v⟩ := q
    have hp : p ≠ [] := hne (p, fk, v) (by simp)
    cases p with
    | nil => exact absurd rfl hp
    | cons p₁ pr =>
      simp only [List.map_cons, unflatGo]
      rw [insertPath_route hl]
      cases hins : insertPath inner (p₁ :: pr) fk v with
      | error e => simp [Bind.bind, Except.bind]
      | ok s₁ =>
        simp only [Bind.bind, Except.bind]
        rw [ih (setV cfg k (.node s₁)) k s₁ dlookup_setV_self
          (fun pv hpv => hne pv (by simp [hpv]))]
        cases unflatGo s₁ qs <;> simp [setV_setV]

mutual

theorem unflat_tree : ∀ (es : Config), wfTree es = true →
    ∀ (fk : List String → String) (cfg : Config),
    (∀ kv ∈ es, containsK cfg kv.1 = false) →
    unflatGo cfg ((pathsN es).map (fun pv => (pv.1, fk pv.1, pv.2))) = .ok (cfg ++ es)
  | [], _, fk, cfg, _ => by simp [pathsN, unflatGo]
  | (k, e) :: rest, hwf, fk, cfg, hfresh => by
      simp only [wfTree, Bool.and_eq_true, Bool.not_eq_true'] at hwf
      obtain ⟨⟨⟨hgk, hck⟩, hwe⟩, hwr⟩ := hwf
      have hk : containsK cfg k = false := hfresh (k, e) (by simp)
      simp only [pathsN, List.map_append, List.map_map]
      rw [unflatGo_append]
      have hfirst :
          (pathsE e).map ((fun pv => (pv.1, fk pv.1, pv.2)) ∘
            (fun pv => (k :: pv.1, pv.2)))
          = (pathsE e).map (fun pv => (k :: pv.1, (fun p => fk (k :: p)) pv.1, pv.2)) :=
        List.map_congr_left (fun pv _ => rfl)
      rw [hfirst, unflat_entry e hwe k (fun p => fk (k :: p)) cfg hk]
      show unflatGo (cfg ++ [(k, e)]) ((pathsN rest).map (fun pv => (pv.1, fk pv.1, pv.2)))
        = .ok (cfg ++ (k, e) :: rest)
      have hrest := unflat_tree rest hwr fk (cfg ++ [(k, e)]) (fun kv hkv => by
        rw [containsK_append]
        have h1 : containsK cfg kv.1 = false := hfresh kv (by simp [hkv])
        have h2 : containsK [(k, e)] kv.1 = false := by
          have hne : k ≠ kv.1 := by
            intro he
            have := keys_containsK (c := rest) (k := kv.1) (by
              simp only [List.mem_map]
              exact ⟨kv, hkv, rfl⟩)
            rw [← he] at this
            rw [hck] at this
            simp at this
          simp [containsK, dlookup, hne]
        rw [h1, h2]
        rfl)
      rw [hrest]
      simp

theorem unflat_entry : ∀ (e : CElem), wfElem e = true →
    ∀ (k : String) (fk : List String → String) (cfg : Config), containsK cfg k = false →
    unflatGo cfg ((pathsE e).map (fun pv => (k :: pv.1, fk pv.1, pv.2))) = .ok (cfg ++ [(k, e)])
  | .leaf v, _, k, fk, cfg, hfresh => by
      simp only [pathsE, List.map_cons, List.map_nil, unflatGo, insertPath, hfresh,
        Bool.false_eq_true, if_false]
      simp [Bind.bind, Except.bind, unflatGo]
  | .node sub, hwf, k, fk, cfg, hfresh => by
      simp only [wfElem, Bool.and_eq_true] at hwf
      obtain ⟨hne, hwt⟩ := hwf
      have hsub := unflat_tree sub hwt fk [] (fun kv _ => by simp [containsK, dlookup])
      have hgood := pathsN_good sub hwt
      have hnn : pathsN sub ≠ [] := by
        have := pathsE_ne_nil (.node sub) (by simp [wfElem, hne, hwt])
        simpa [pathsE] using this
      simp only [pathsE]
      cases hps : pathsN sub with
      | nil => exact absurd hps hnn
      | cons q₀ qs =>
        rw [hps] at hsub hgood
        obtain ⟨p₀, v₀⟩ := q₀
        have hp₀ : p₀ ≠ [] := (hgood (p₀, v₀) (by simp)).1
        cases hp₀' : p₀ with
        | nil => exact absurd hp₀' hp₀
        | cons s₁ sr =>
          subst hp₀'
          simp only [List.map_cons, unflatGo] at hsub ⊢
          rw [insertPath_fresh (containsK_false_lookup hfresh)]
          cases hins : insertPath [] (s₁ :: sr) (fk (s₁ :: sr)) v₀ with
          | error e =>
            rw [hins] at hsub
            simp [Bind.bind, Except.bind] at hsub
          | ok sub₁ =>
            rw [hins] at hsub
            simp only [Bind.bind, Except.bind] at hsub ⊢
            have hlist :
                qs.map (fun pv => (k :: pv.1, fk pv.1, pv.2))
                = (qs.map (fun pv => (pv.1, fk pv.1, pv.2))).map
                    (fun pv => (k :: pv.1, pv.2.1, pv.2.2)) := by
              rw [List.map_map]
              exact List.map_congr_left (fun pv _ => rfl)
            have hroute := unflatGo_route (qs.map (fun pv => (pv.1, fk pv.1, pv.2)))
              (cfg ++ [(k, CElem.node sub₁)]) k sub₁
              (by rw [dlookup_append_self (containsK_false_lookup hfresh)])
              (by
                intro pv hpv
                simp only [List.mem_map] at hpv
                obtain ⟨q, hq, rfl⟩ := hpv
                exact (hgood q (by simp [hq])).1)
            rw [hlist, hroute]
            have hqs :
                unflatGo sub₁ (qs.map (fun pv => (pv.1, fk pv.1, pv.2))) = .ok sub := by
              simpa using hsub
            simp only [hqs]
            rw [setV_append_self hfresh]

end

/-! ## Claim theorems -/

/-- **C1**: resolution fails with the cyclic-reference error exactly on
re-entry of `parse_key` while the key is still in `in_progress`: the snapshot
`{"a": "{b}", "b": "{a}"}` fails with the cyclic error, the diamond snapshot
`{"a": "{c}", "b": "{c}", "c": 1}` resolves without a cycle error with both
`a` and `b` equal to the integer `1`, and in general `parse_key` on a key
already in `in_progress` (and not yet done) fails with exactly
`CyclicReferenceError` for that key. -/
theorem claim_C1 :
    parseFlat [] 20 [("a", .val (.str "{b}")), ("b", .val (.str "{a}"))]
      = .error (.cyclic "a")
    ∧ parseFlat [] 20 [("a", .val (.str "{c}")), ("b", .val (.str "{c}")), ("c", .val (.int 1))]
      = .ok ⟨[("a", .val (.int 1)), ("b", .val (.int 1)), ("c", .val (.int 1))],
             [], ["b", "a", "c"], []⟩
    ∧ ∀ (fuel : Nat) (env : Env) (st : PState) (key : String),
        key ∉ st.parsed → key ∈ st.parsing →
        parseKey env (fuel + 1) st key = .error (.cyclic key) := by
  refine ⟨rfl, rfl, ?_⟩
  intro fuel env st key h1 h2
  unfold parseKey
  rw [if_neg h1, if_pos h2]

/-- Witness for **C1**: the general cyclic-re-entry clause at a concrete
state whose `in_progress` set holds `"a"`. -/
theorem claim_C1_witness :
    parseKey [] 1 ⟨[], ["a"], [], []⟩ "a" = .error (.cyclic "a") :=
  claim_C1.2.2 0 [] ⟨[], ["a"], [], []⟩ "a" (by decide) (by decide)

/-- **C2**: a string value that is exactly one self-reference token to an
existing key resolves to that key's resolved value with its type preserved
(`{"seed": 666, "t": {"seed": "{seed}"}}` gives the integer `666` at
`t.seed`), a token embedded in larger text stringifies
(`{"seed": 666, "name": "exp-{seed}"}` gives the string `"exp-666"`), and the
full-match path is the only way `replace_self_reference` can produce a
non-string result. -/
theorem claim_C2 :
    parseConfig [] 20
        [("seed", .leaf (.val (.int 666))), ("t", .node [("seed", .leaf (.val (.str "{seed}")))])]
      = .ok ([("seed", .leaf (.val (.int 666))), ("t", .node [("seed", .leaf (.val (.int 666)))])], [])
    ∧ parseConfig [] 20
        [("seed", .leaf (.val (.int 666))), ("name", .leaf (.val (.str "exp-{seed}")))]
      = .ok ([("seed", .leaf (.val (.int 666))), ("name", .leaf (.val (.str "exp-666")))], [])
    ∧ ∀ (fuel : Nat) (env : Env) (st st' : PState) (s : String) (r : FlatVal),
        replaceSelfRef env fuel st s = .ok (st', r) → isStrF r = false →
        (fullmatchSelfRef s).isSome = true := by
  refine ⟨rfl, rfl, ?_⟩
  intro fuel env st st' s r h hr
  match fuel with
  | 0 => simp [replaceSelfRef] at h
  | fuel + 1 =>
    unfold replaceSelfRef at h
    cases hm : fullmatchSelfRef s with
    | some key => simp [hm]
    | none =>
      rw [hm] at h
      cases hs : selfSub env fuel st s.data with
      | error e => rw [hs] at h; simp [Bind.bind, Except.bind] at h
      | ok p =>
        rw [hs] at h
        simp only [Bind.bind, Except.bind, Except.ok.injEq, Prod.mk.injEq] at h
        rw [← h.2] at hr
        simp [isStrF] at hr

/-- Witness for **C2**: the non-string clause at a concrete full-match call:
resolving `"{seed}"` against `{"seed": 666}` yields the integer `666`. -/
theorem claim_C2_witness :
    (fullmatchSelfRef "{seed}").isSome = true :=
  claim_C2.2.2 5 [] (mkPState [("seed", .val (.int 666))])
    ⟨[("seed", .val (.int 666))], [], ["seed"], []⟩ "{seed}" (.val (.int 666)) rfl rfl

/-- **C4 (amended)**: in `merge`'s same-variant comparison a boolean overlay
over an integer base counts as the *same* variant (Python's `bool` is a
subclass of `int`): it replaces the base value silently, with no
"type overridden" signal; only the opposite direction (integer overlay over
boolean base) is a different variant and replaces with the signal. -/
theorem claim_C4 (k : String) (n : Int) (b : Bool) :
    merge [(k, .leaf (.val (.int n)))] [(k, .leaf (.val (.bool b)))] "pass"
      = .ok ([(k, .leaf (.val (.bool b)))], [])
    ∧ merge [(k, .leaf (.val (.bool b)))] [(k, .leaf (.val (.int n)))] "pass"
      = .ok ([(k, .leaf (.val (.int n)))], [.typeOverridden k]) := by
  constructor <;>
    simp [merge, mergeGo, mergeSame, dlookup, pyIsinstanceSame, setV, Bind.bind, Except.bind]

/-- Counterexample for **C4** as stated: merging the boolean overlay
`{"k": True}` over the integer base `{"k": 1}` replaces the value but emits
*no* "type overridden" signal, contradicting the claim that the signal is
emitted in either direction. -/
theorem claim_C4_cex :
    merge [("k", .leaf (.val (.int 1)))] [("k", .leaf (.val (.bool true)))] "pass"
      = .ok ([("k", .leaf (.val (.bool true)))], [])
    ∧ ([] : List Warn) ≠ [.typeOverridden "k"] :=
  ⟨rfl, by decide⟩

/-- **C5 (amended)**: environment substitution recognizes bare `$NAME` and
braced `${NAME}` where `NAME` is a letter followed by letters, digits `1`-`9`
or underscores — the digit `0` is *not* in the regexp class `[a-zA-Z1-9_]` —
each occurrence being replaced textually by the environment value, or by the
empty string plus a `MissingEnvironmentVariable` warning when undefined:
`{"a": "$MISSING"}` (unset) resolves to `a == ""` with exactly one such
warning, and `"$A0"` with only `A0` defined reads the reference `$A`,
leaving `"0"` behind (which then converts to the integer `0`). -/
theorem claim_C5 :
    parseConfig [] 10 [("a", .leaf (.val (.str "$MISSING")))]
      = .ok ([("a", .leaf (.val (.str "")))], [.missingEnv "MISSING"])
    ∧ replace_env_reference [("NAME1_x", "v")] "$NAME1_x" = (.str "v", [])
    ∧ replace_env_reference [("NAME1_x", "v")] "${NAME1_x}" = (.str "v", [])
    ∧ replace_env_reference [("A0", "x")] "$A0" = (.int 0, [.missingEnv "A"]) :=
  ⟨rfl, rfl, rfl, rfl⟩

/-- Counterexample for **C5** as stated: `A0` *is* a letter followed by
letters/digits/underscores, yet with `A0` defined as `"x"` the value `"$A0"`
does not become `"x"`: the regexp stops before the digit `0`, warns about the
undefined `A` and the result converts to the integer `0`. -/
theorem claim_C5_cex :
    replace_env_reference [("A0", "x")] "$A0" = (.int 0, [.missingEnv "A"])
    ∧ CValue.int 0 ≠ .str "x" :=
  ⟨rfl, by decide⟩

/-- **C6 (amended)**: after all textual environment replacement the whole
resulting string goes through best-effort conversion (integer, then float,
then case-insensitive `true`/`false`, else string), so a full environment
reference can change type, and an *embedded* reference stays a string only
when the fully substituted text does not itself parse — numeric surrounding
text can also change type, as in `"3$A"` with `A=12` giving the integer
`312`. -/
theorem claim_C6 :
    convert_if_possible "01" = .int 1
    ∧ convert_if_possible "3.14" = .float (mkRat 157 50)
    ∧ (mkRat 157 50 : ℚ) = 3.14
    ∧ convert_if_possible "true" = .bool true
    ∧ convert_if_possible "TRUE" = .bool true
    ∧ convert_if_possible "hello" = .str "hello"
    ∧ replace_env_reference [("A", "12")] "$A" = (.int 12, [])
    ∧ replace_env_reference [("A", "12")] "exp-$A" = (.str "exp-12", [])
    ∧ replace_env_reference [("A", "12")] "3$A" = (.int 312, []) := by
  refine ⟨rfl, rfl, ?_, rfl, rfl, rfl, rfl, rfl, rfl⟩
  rw [Rat.mkRat_eq_div]
  norm_num

/-- Counterexample for **C6** as stated: in `"3$A"` the reference is embedded
in surrounding text, yet with `A=12` the result is the integer `312`, not a
string — whole-string conversion applies to partially substituted values
too. -/
theorem claim_C6_cex :
    replace_env_reference [("A", "12")] "3$A" = (.int 312, [])
    ∧ isStrCV (replace_env_reference [("A", "12")] "3$A").1 = false :=
  ⟨rfl, rfl⟩

/-- **C9 (amended)**: resolution is idempotent on snapshots whose resolved
values are *inert* — non-strings, or strings that neither start with the `!P`
escape nor contain `$` or `{`.  If resolving a snapshot succeeds and every
resolved value is inert, resolving the resolved snapshot again succeeds,
changes no value and emits no warnings.  (A resolved value can still carry
template syntax — e.g. produced by `!P` or substituted from the environment —
and then a second resolution transforms it again.) -/
theorem claim_C9 :
    ∀ (env : Env) (fuel₁ : Nat) (flat : FlatConfig) (st : PState),
      parseFlat env fuel₁ flat = .ok st → inertAll st.config = true →
      ∀ (fuel : Nat), needFuel st.config ≤ fuel →
      ∃ st', parseFlat env fuel st.config = .ok st'
        ∧ st'.config = st.config ∧ st'.warns = [] := by
  intro env fuel₁ flat st _ hin fuel hf
  obtain ⟨st', h', hc', hw', -⟩ :=
    parseAll_inert env (st.config.map Prod.fst) (mkPState st.config) hin rfl
      (fun k hk => keys_containsK hk) fuel hf
  exact ⟨st', h', hc', hw'⟩

/-- Witness for **C9**: the snapshot `{"a": "!Px"}` resolves to
`{"a": "x"}`, whose values are inert, so resolving it again returns it
unchanged. -/
theorem claim_C9_witness :
    ∃ st', parseFlat [] 10 [("a", FlatVal.val (.str "x"))] = .ok st'
      ∧ st'.config = [("a", FlatVal.val (.str "x"))] ∧ st'.warns = [] :=
  claim_C9 [] 10 [("a", .val (.str "!Px"))]
    ⟨[("a", .val (.str "x"))], [], ["a"], []⟩ rfl rfl 10 (by decide)

/-- Counterexample for **C9** as stated: resolution strips one `!P` escape
per pass, so `{"a": "!P!Px"}` resolves to `{"a": "!Px"}`, and resolving that
result again yields the different snapshot `{"a": "x"}`. -/
theorem claim_C9_cex :
    parseFlat [] 10 [("a", FlatVal.val (.str "!P!Px"))]
      = .ok ⟨[("a", .val (.str "!Px"))], [], ["a"], []⟩
    ∧ parseFlat [] 10 [("a", FlatVal.val (.str "!Px"))]
      = .ok ⟨[("a", .val (.str "x"))], [], ["a"], []⟩
    ∧ ([("a", FlatVal.val (.str "!Px"))] : FlatConfig) ≠ [("a", FlatVal.val (.str "x"))] :=
  ⟨rfl, rfl, by decide⟩

/-- **C7**: for trees with the dict invariant (unique keys at every level),
`merge(a, b, "raise")` fails — and then precisely with a `MergeKeyError` —
iff `b` has a non-`__`-prefixed key absent from `a` (`hasNewKey`, read
through merge's recursion into keys where both sides hold mappings), and
`__`-prefixed keys absent from `a` are copied into the result without
error. -/
theorem claim_C7 (a b : Config) (h : dictWF b = true) :
    failsMergeKey (merge a b "raise") = hasNewKey a b
    ∧ isOkE (merge a b "raise") = !hasNewKey a b
    ∧ (∀ (k : String) (v : CElem) (r : Config) (w : List Warn),
        isDunder k = true → dlookup a k = none → dlookup b k = some v →
        merge a b "raise" = .ok (r, w) → dlookup r k = some v) := by
  have hm : merge a b "raise" = mergeGo "raise" a b [] := by simp [merge]
  refine ⟨?_, ?_, ?_⟩
  · rw [hm]
    exact mergeGo_raise_fails b a [] h
  · rw [hm]
    have h1 := mergeGo_raise_fails b a [] h
    have h2 := mergeGo_okOrMK b a []
    cases hr : mergeGo "raise" a b [] with
    | ok p =>
      rw [hr] at h1
      simp [failsMergeKey] at h1
      simp [isOkE, ← h1]
    | error e =>
      rw [hr] at h1 h2
      cases e <;> simp_all [failsMergeKey, isOkE, okOrMK]
  · intro k v r w _ ha hb hok
    rw [hm] at hok
    exact mergeGo_insert_absent h hok ha hb

/-- Witness for **C7**: merging `{"__run__": ...}` over an empty base with
policy `"raise"` succeeds, does not count as a new-key violation, and copies
the dunder key into the result. -/
theorem claim_C7_witness :
    dlookup [("__run__", CElem.leaf (.val (.str "hello:main")))] "__run__"
      = some (CElem.leaf (.val (.str "hello:main"))) :=
  (claim_C7 [] [("__run__", .leaf (.val (.str "hello:main")))] (by decide)).2.2
    "__run__" (.leaf (.val (.str "hello:main")))
    [("__run__", .leaf (.val (.str "hello:main")))] [] (by decide) rfl rfl rfl

/-- **C10 (amended)**: `load` merges the file's own keys over its merged
`__default__` ancestors under the file's `__new_key_policy__` (default
`"warn"`), and the file's *own* `__new_key_policy__` is stripped — but only
when the file has a `__default__` key.  A file without `__default__` is
returned verbatim (its `__new_key_policy__` included), and with `__default__`
the result can still contain `__new_key_policy__` when the merged defaults
carry it. -/
theorem claim_C10 :
    (∀ (fs : FileSystem) (fuel : Nat) (path : String) (cfg : Config),
      dlookup fs path = some cfg → dlookup cfg "__default__" = none →
      loadConfig fs (fuel + 1) path = .ok (cfg, []))
    ∧ (∀ (fs : FileSystem) (fuel : Nat) (path : String) (cfg : Config) (dv : CElem)
        (r : Config) (w : List Warn),
      dlookup fs path = some cfg → dlookup cfg "__default__" = some dv →
      loadConfig fs (fuel + 1) path = .ok (r, w) →
      containsK r "__new_key_policy__" = true →
      ∃ defaults dcfg dws, defaultPathList dv = some defaults
        ∧ loadDefaults fs fuel path defaults [] [] = .ok (dcfg, dws)
        ∧ containsK dcfg "__new_key_policy__" = true) := by
  constructor
  · intro fs fuel path cfg hfs hnd
    simp [loadConfig, hfs, dpop, hnd]
  · intro fs fuel path cfg dv r w hfs hdv hload hr
    simp only [loadConfig, hfs, dpop, hdv] at hload
    cases hdl : defaultPathList dv with
    | none => simp only [hdl] at hload; exact absurd hload (by simp)
    | some defaults =>
      simp only [hdl] at hload
      cases hld : loadDefaults fs fuel path defaults [] [] with
      | error e => rw [hld] at hload; simp [Bind.bind, Except.bind] at hload
      | ok p =>
        obtain ⟨dcfg, dws⟩ := p
        rw [hld] at hload
        simp only [Bind.bind, Except.bind] at hload
        refine ⟨defaults, dcfg, dws, rfl, hld, ?_⟩
        set pol := (match dlookup (removeK cfg "__default__") "__new_key_policy__" with
          | none => "warn"
          | some (.leaf (.val (.str s))) => s
          | some _ => "<non-string policy>") with hpol
        cases hmg : merge dcfg (removeK (removeK cfg "__default__") "__new_key_policy__") pol with
        | error e => rw [hmg] at hload; simp [Bind.bind, Except.bind] at hload
        | ok q =>
          obtain ⟨q1, q2⟩ := q
          rw [hmg] at hload
          simp only [Except.ok.injEq, Prod.mk.injEq] at hload
          obtain ⟨hq1, -⟩ := hload
          unfold merge at hmg
          by_cases hp : pol = "raise" ∨ pol = "warn" ∨ pol = "pass"
          · rw [if_pos hp] at hmg
            have hpres := mergeGo_preserve (k := "__new_key_policy__") hmg
              (by simp [containsK, dlookup_removeK_self])
            rw [← hq1, containsK, hpres] at hr
            exact hr
          · rw [if_neg hp] at hmg
            exact absurd hmg (by simp)

/-- **C3 (amended)**: for every tree satisfying the data model's
well-formedness — keys nonempty, free of `.` and unique at every level, and
every mapping node nonempty — unflattening the flattened form gives back
exactly the tree: `config_unflatten (config_flatten t) = t`.  (An empty
mapping node flattens to nothing, so it is lost by the round trip.) -/
theorem claim_C3 (t : Config) (hwf : wfTree t = true) : roundTrip t = .ok t := by
  have hflat := flatN_eq t hwf "" [] (fun pv _ => by simp [containsK, dlookup])
  have h1 : config_flatten t = .ok ((pathsN t).map (fun pv => (joinSeg "" pv.1, pv.2))) := by
    simpa [config_flatten] using hflat
  unfold roundTrip
  rw [h1]
  simp only [Except.bind]
  unfold config_unflatten
  rw [List.map_map]
  have hmap : (pathsN t).map
      ((fun kv => (splitDot kv.1, kv.1, kv.2)) ∘ (fun pv => (joinSeg "" pv.1, pv.2)))
      = (pathsN t).map (fun pv => (pv.1, joinSeg "" pv.1, pv.2)) := by
    refine List.map_congr_left (fun pv hpv => ?_)
    have hg := pathsN_good t hwf pv hpv
    simp only [Function.comp]
    rw [splitDot_joinSeg pv.1 hg.1 hg.2]
  rw [hmap, unflat_tree t hwf (joinSeg "") [] (fun kv _ => by simp [containsK, dlookup])]
  simp

/-- Witness for **C3**: the round trip at the docstring example
`{"hello": {"world": True, "values": {"train": [1, 2, 3], "test": 3.5}}}`. -/
theorem claim_C3_witness :
    roundTrip [("hello", CElem.node
      [("world", .leaf (.val (.bool true))),
       ("values", .node [("train", .leaf (.list [.int 1, .int 2, .int 3])),
                         ("test", .leaf (.val (.float (mkRat 7 2))))])])]
    = .ok [("hello", CElem.node
      [("world", .leaf (.val (.bool true))),
       ("values", .node [("train", .leaf (.list [.int 1, .int 2, .int 3])),
                         ("test", .leaf (.val (.float (mkRat 7 2))))])])] :=
  claim_C3 _ (by decide)

/-- Counterexample for **C3** as stated: the tree `{"a": {}}` is
collision-free (flattening succeeds, producing no entries at all), yet the
round trip returns the empty tree, not the original. -/
theorem claim_C3_cex :
    roundTrip [("a", CElem.node [])] = .ok []
    ∧ ([] : Config) ≠ [("a", CElem.node [])] :=
  ⟨rfl, by decide⟩

/-- Witness for **C10**: a file without `__default__` is returned verbatim
with no warnings. -/
theorem claim_C10_witness :
    loadConfig [("g", [("a", CElem.leaf (.val (.int 1)))])] 1 "g"
      = .ok ([("a", CElem.leaf (.val (.int 1)))], []) :=
  claim_C10.1 [("g", [("a", .leaf (.val (.int 1)))])] 0 "g"
    [("a", .leaf (.val (.int 1)))] rfl rfl

/-- Counterexample for **C10** as stated: a loaded file with
`__new_key_policy__` but no `__default__` keeps `__new_key_policy__` in the
returned tree (`cfg.pop("__default__")` raises `KeyError` and the tree is
returned before the policy key is ever popped). -/
theorem claim_C10_cex :
    loadConfig [("f", [("__new_key_policy__", CElem.leaf (.val (.str "pass"))),
                       ("a", CElem.leaf (.val (.int 1)))])] 5 "f"
      = .ok ([("__new_key_policy__", CElem.leaf (.val (.str "pass"))),
              ("a", CElem.leaf (.val (.int 1)))], [])
    ∧ containsK [("__new_key_policy__", CElem.leaf (.val (.str "pass"))),
                 ("a", CElem.leaf (.val (.int 1)))] "__new_key_policy__" = true :=
  ⟨rfl, rfl⟩

end Expyrun
